import Mathlib

/-!
CmLib: tolerant scalar and vector math (`math/CmBaseMathFunc.h`).

A shallow embedding of the header's templates, with their properties.

Modelling conventions.

* The scalar type `T` of the templates is an arbitrary linearly ordered field.
  The definitions named after the source functions compute exactly: there is
  no rounding, no NaN and no infinity.  At `T = ℚ` every definition below
  evaluates; at `T = ℝ` one gets the exact real reading.  Conversions between
  `float` and `double` are the identity in this reading.
* Where a property depends on the rounding of the arithmetic, the definitions
  suffixed `rounded` make it explicit: they take the rounding `fl : T → T` of
  the scalar type as a parameter and apply it to each arithmetic result.
  `binary32Round` and `binary64Round` are the roundings of IEEE-754 `float` and
  `double` (round to nearest, ties to even, subnormals included, no overflow);
  with `fl = id` the rounded definitions are the exact ones.
* The constants `1e-6f` and `1e-10` are the binary numbers the literals denote.
* The two instantiations of the header are told apart by a `Scalar` tag, which
  selects the `CmAbs` specialisation, the default tolerance and
  `std::numeric_limits<T>::max()`.
* A default argument is passed explicitly at the call site.
* A buffer `T* p` is a `List T`.  A read or write at an index outside the list
  is undefined behaviour in the source and yields `none` here.
* `<cmath>`'s `sqrt` is not part of the header: it is a parameter
  `sqrt : T → T`, and its contract appears as a hypothesis where it is needed.
* The loop counters are `int i` compared against `CmUInt32 n`.  The definitions
  suffixed `Int32` keep that counter: `++i` past `INT_MAX` is undefined and
  yields `none`.  The other loops count in natural numbers, which is the same
  thing for `n ≤ INT_MAX = 2^31 - 1` (`CmNormalizeInt32_eq`).
-/

namespace CmLib

/-- The scalar types the header is instantiated at. -/
inductive Scalar where
  | float
  | double
deriving DecidableEq, Repr

section Defs

variable {T : Type} [LinearOrderedField T]

/-- Line 31: `const float kCmDefaultToleranceF = 1e-6f;`.  The literal denotes
the binary32 number nearest to `10^-6`, which is `8796093 / 2^43`. -/
def kCmDefaultToleranceF : T := 8796093 / 2 ^ 43

/-- Line 32: `const double kCmDefaultToleranceD = 1e-10;`.  The literal denotes
the binary64 number nearest to `10^-10`, which is `7737125245533627 / 2^86`. -/
def kCmDefaultToleranceD : T := 7737125245533627 / 2 ^ 86

/-- Lines 34-40: `CmSwap(a, b)`, the pair of references after the call. -/
def CmSwap {α : Type} (a b : α) : α × α :=
  let t := a
  let a := b
  let b := t
  (a, b)

/-- Lines 42-46: the generic `CmAbs`, `(x < 0) ? -x : x`. -/
def CmAbs (x : T) : T := if x < 0 then -x else x

/-- The platform primitive `std::fabs` of `<cmath>`. -/
def fabs (x : T) : T := |x|

/-- Lines 48-52: the `double` specialisation of `CmAbs`. -/
def CmAbs_double (x : T) : T := fabs x

/-- Lines 54-58: the `float` specialisation of `CmAbs`. -/
def CmAbs_float (x : T) : T := fabs x

/-- Overload resolution of `CmAbs` at `float` and at `double`. -/
def CmAbsAt : Scalar → T → T
  | Scalar.float => CmAbs_float
  | Scalar.double => CmAbs_double

/-- Lines 60-73: `CmDefaultTolerance<T>()`. -/
def CmDefaultTolerance : Scalar → T
  | Scalar.float => kCmDefaultToleranceF
  | Scalar.double => kCmDefaultToleranceD

/-- The constant `std::numeric_limits<T>::max()` of `<limits>`: the largest
finite IEEE-754 binary32, respectively binary64, value. -/
def numericLimitsMax : Scalar → T
  | Scalar.float => (2 ^ 24 - 1) * 2 ^ 104
  | Scalar.double => (2 ^ 53 - 1) * 2 ^ 971

/-- Lines 75-79: `CmEquals`, `CmAbs(x1 - x2) <= tol`. -/
def CmEquals (s : Scalar) (x1 x2 tol : T) : Bool :=
  decide (CmAbsAt s (x1 - x2) ≤ tol)

/-- Lines 94-98: `CmLess`, `x1 < (x2 - tol)`. -/
def CmLess (x1 x2 tol : T) : Bool := decide (x1 < x2 - tol)

/-- Lines 100-104: `CmLessOrEqual`, `x1 <= (x2 + tol)`. -/
def CmLessOrEqual (x1 x2 tol : T) : Bool := decide (x1 ≤ x2 + tol)

/-- Lines 106-110: `CmGreater`, `x1 > (x2 + tol)`. -/
def CmGreater (x1 x2 tol : T) : Bool := decide (x1 > x2 + tol)

/-- Lines 112-116: `CmGreaterOrEqual`, `x1 >= (x2 - tol)`. -/
def CmGreaterOrEqual (x1 x2 tol : T) : Bool := decide (x1 ≥ x2 - tol)

/-- Lines 118-122: `CmIsZero`, `x >= (-tol) && x <= tol`. -/
def CmIsZero (x tol : T) : Bool := decide (x ≥ -tol) && decide (x ≤ tol)

/-- Lines 124-130: `CmSqrt`; the local `dX` is never used. -/
def CmSqrt (sqrt : T → T) (x : T) : T :=
  let retVal := sqrt x
  retVal

/-- A write `p[i] = v`: defined only inside the buffer. -/
def store (p : List T) (i : Nat) (v : T) : Option (List T) :=
  if i < p.length then some (p.set i v) else none

/-- Lines 136-139: the loop of `CmLengthSq`, with `k` iterations left, the
counter at `i` and the accumulator at `l`. -/
def CmLengthSq.loop (p : List T) : Nat → Nat → T → Option T
  | 0, _, l => some l
  | k + 1, i, l => (p[i]?).bind fun x => CmLengthSq.loop p k (i + 1) (l + x * x)

/-- Lines 132-141: `CmLengthSq(p, n)`. -/
def CmLengthSq (p : List T) (n : Nat) : Option T :=
  CmLengthSq.loop p n 0 0

/-- Lines 143-148: `CmLength(p, n)`. -/
def CmLength (sqrt : T → T) (p : List T) (n : Nat) : Option T :=
  (CmLengthSq p n).map fun lSq => sqrt lSq

/-- Lines 153-156 of `CmNormalize`: the zero-tolerance it ends up with.  The
call `CmLess(tol, CmDefaultTolerance<T>())` leaves out the third argument of
`CmLess`, which is then the default tolerance. -/
def CmNormalize.tol (s : Scalar) : T :=
  let maxValue : T := numericLimitsMax s
  let tol : T := 10 / maxValue
  if CmLess tol (CmDefaultTolerance s) (CmDefaultTolerance s) then
    CmDefaultTolerance s
  else
    tol

/-- Lines 160-163: the loop `p[i] = T(0)`, with `k` iterations left and the
counter at `i`. -/
def CmNormalize.zeroLoop : Nat → Nat → List T → Option (List T)
  | 0, _, p => some p
  | k + 1, i, p => (store p i 0).bind fun q => CmNormalize.zeroLoop k (i + 1) q

/-- Lines 168-171: the loop `p[i] *= invL`, with `k` iterations left and the
counter at `i`. -/
def CmNormalize.scaleLoop (invL : T) : Nat → Nat → List T → Option (List T)
  | 0, _, p => some p
  | k + 1, i, p =>
    (p[i]?).bind fun x =>
      (store p i (x * invL)).bind fun q => CmNormalize.scaleLoop invL k (i + 1) q

/-- Lines 150-174: `CmNormalize(p, n)`; the result is the returned length
together with the buffer as the call leaves it. -/
def CmNormalize (s : Scalar) (sqrt : T → T) (p : List T) (n : Nat) :
    Option (T × List T) :=
  (CmLength sqrt p n).bind fun l =>
    let tol : T := CmNormalize.tol s
    if CmIsZero l tol then
      (store p 0 1).bind fun p1 =>
        (CmNormalize.zeroLoop (n - 1) 1 p1).map fun p2 => (l, p2)
    else
      let invL : T := 1 / l
      (CmNormalize.scaleLoop invL n 0 p).map fun p2 => (l, p2)

set_option linter.unusedVariables false in
/-- Lines 86-90: the loop of `CmEqualsPerByte` over the two byte arrays, with `k`
iterations left and the counter at `i`; `false` is the early `return false`. -/
def CmEqualsPerByte.loop (pBytes1 pBytes2 : Nat → Nat) : Nat → Nat → Bool
  | 0, _ => true
  | k + 1, i =>
    if pBytes1 i ≠ pBytes2 i then false
    else CmEqualsPerByte.loop pBytes1 pBytes2 k (i + 1)

set_option linter.unusedVariables false in
/-- Lines 81-92: `CmEqualsPerByte`.  An argument is an object of type `α`;
`bytes x i` is byte `i` of the object representation of `x`, which is what
`reinterpret_cast<CmUInt8*>(&x)[i]` reads, and `sizeofT` is `sizeof(T)`. -/
def CmEqualsPerByte {α : Type} (bytes : α → Nat → Nat) (sizeofT : Nat)
    (x1 x2 tol : α) : Bool :=
  let pBytes1 := bytes x1
  let pBytes2 := bytes x2
  CmEqualsPerByte.loop pBytes1 pBytes2 sizeofT 0

/-- Byte `i` of an IEEE-754 binary64 object given by its 64-bit pattern, least
significant byte first. -/
def binary64Bytes (b : Nat) (i : Nat) : Nat := b / 256 ^ i % 256

/-- The number an IEEE-754 binary64 bit pattern denotes: sign bit 63, biased
exponent in bits 62-52, fraction in bits 51-0; `none` for infinities and NaN. -/
def binary64Value (b : Nat) : Option ℚ :=
  let sign : Nat := b / 2 ^ 63 % 2
  let e : Nat := b / 2 ^ 52 % 2 ^ 11
  let m : Nat := b % 2 ^ 52
  if e = 2047 then none
  else
    let mag : ℚ := if e = 0 then (m : ℚ) / 2 ^ 1074 else (2 ^ 52 + (m : ℚ)) * 2 ^ e / 2 ^ 1075
    some (if sign = 1 then -mag else mag)

/-- The call `CmEquals(x1, x2)`: line 76 declares
`T tol = CmDefaultTolerance<T>()`. -/
def CmEquals.defaultTol (s : Scalar) (x1 x2 : T) : Bool :=
  CmEquals s x1 x2 (CmDefaultTolerance s)

/-- Round to the nearest integer, ties to the even one. -/
def roundHalfEven (x : ℚ) : ℤ :=
  let f : ℤ := ⌊x⌋
  let r : ℚ := x - f
  if r < 1 / 2 then f
  else if 1 / 2 < r then f + 1
  else if f % 2 = 0 then f else f + 1

/-- Round a magnitude `a ≥ 0` to nearest, ties to even, in a binary format with
`prec` significant bits and least normal exponent `emin`: the spacing is
`2 ^ (e - (prec - 1))`, with `e` the exponent of `a` or `emin` if that is
larger (subnormal range).  The exponent range is unbounded above: overflow to
infinity is not described. -/
def roundMagnitude (prec : ℕ) (emin : ℤ) (a : ℚ) : ℚ :=
  let e : ℤ := max (Int.log 2 a) emin
  let ulp : ℚ := 2 ^ (e - ((prec : ℤ) - 1))
  (roundHalfEven (a / ulp) : ℚ) * ulp

/-- Round to nearest, ties to even, by sign and magnitude: the rounding of
IEEE-754 arithmetic in its default mode. -/
def roundBinary (prec : ℕ) (emin : ℤ) (q : ℚ) : ℚ :=
  if 0 ≤ q then roundMagnitude prec emin q else -roundMagnitude prec emin (-q)

/-- Rounding to `float`: IEEE-754 binary32, 24 significant bits. -/
def binary32Round (q : ℚ) : ℚ := roundBinary 24 (-126) q

/-- Rounding to `double`: IEEE-754 binary64, 53 significant bits. -/
def binary64Round (q : ℚ) : ℚ := roundBinary 53 (-1022) q

/-- Lines 75-79, `CmEquals`, with the rounding of the subtraction explicit:
`fl` rounds an exact result to the scalar type; `fabs` is exact. -/
def CmEquals.rounded (fl : T → T) (s : Scalar) (x1 x2 tol : T) : Bool :=
  decide (CmAbsAt s (fl (x1 - x2)) ≤ tol)

/-- Lines 94-98, `CmLess`, with the rounding of `x2 - tol` explicit. -/
def CmLess.rounded (fl : T → T) (x1 x2 tol : T) : Bool := decide (x1 < fl (x2 - tol))

/-- Lines 100-104, `CmLessOrEqual`, with the rounding of `x2 + tol` explicit. -/
def CmLessOrEqual.rounded (fl : T → T) (x1 x2 tol : T) : Bool :=
  decide (x1 ≤ fl (x2 + tol))

/-- Lines 106-110, `CmGreater`, with the rounding of `x2 + tol` explicit. -/
def CmGreater.rounded (fl : T → T) (x1 x2 tol : T) : Bool := decide (x1 > fl (x2 + tol))

/-- Lines 112-116, `CmGreaterOrEqual`, with the rounding of `x2 - tol`
explicit. -/
def CmGreaterOrEqual.rounded (fl : T → T) (x1 x2 tol : T) : Bool :=
  decide (x1 ≥ fl (x2 - tol))

/-- Lines 136-139, the loop of `CmLengthSq`, with the two roundings of
`l += double(p[i]) * double(p[i])` explicit: the product is rounded, then the
sum. -/
def CmLengthSq.roundedLoop (fl : T → T) (p : List T) : Nat → Nat → T → Option T
  | 0, _, l => some l
  | k + 1, i, l =>
    (p[i]?).bind fun x => CmLengthSq.roundedLoop fl p k (i + 1) (fl (l + fl (x * x)))

/-- Lines 132-141, `CmLengthSq(p, n)`, with rounding `fl`. -/
def CmLengthSq.rounded (fl : T → T) (p : List T) (n : Nat) : Option T :=
  CmLengthSq.roundedLoop fl p n 0 0

/-- Lines 143-148, `CmLength(p, n)`, over the rounded `CmLengthSq`. -/
def CmLength.rounded (fl : T → T) (sqrt : T → T) (p : List T) (n : Nat) : Option T :=
  (CmLengthSq.rounded fl p n).map fun lSq => sqrt lSq

/-- The largest value of the 32-bit `int` that counts the loops. -/
def INT_MAX : Nat := 2147483647

/-- The step `++i` of an `int` counter: signed overflow past `INT_MAX` is
undefined. -/
def incInt (i : Nat) : Option Nat := if i < INT_MAX then some (i + 1) else none

/-- Lines 136-139, the loop of `CmLengthSq`, with the counter as the `int i` of
the source: `k` iterations left, each ending in `++i`. -/
def CmLengthSq.loopInt32 (p : List T) : Nat → Nat → T → Option T
  | 0, _, l => some l
  | k + 1, i, l =>
    (p[i]?).bind fun x =>
      (incInt i).bind fun j => CmLengthSq.loopInt32 p k j (l + x * x)

/-- Lines 132-141, `CmLengthSq(p, n)`, with the `int` counter. -/
def CmLengthSqInt32 (p : List T) (n : Nat) : Option T :=
  CmLengthSq.loopInt32 p n 0 0

/-- Lines 143-148, `CmLength(p, n)`, with the `int` counter. -/
def CmLengthInt32 (sqrt : T → T) (p : List T) (n : Nat) : Option T :=
  (CmLengthSqInt32 p n).map fun lSq => sqrt lSq

/-- Lines 160-163, the loop `p[i] = T(0)`, with the `int` counter. -/
def CmNormalize.zeroLoopInt32 : Nat → Nat → List T → Option (List T)
  | 0, _, p => some p
  | k + 1, i, p =>
    (store p i 0).bind fun q =>
      (incInt i).bind fun j => CmNormalize.zeroLoopInt32 k j q

/-- Lines 168-171, the loop `p[i] *= invL`, with the `int` counter. -/
def CmNormalize.scaleLoopInt32 (invL : T) : Nat → Nat → List T → Option (List T)
  | 0, _, p => some p
  | k + 1, i, p =>
    (p[i]?).bind fun x =>
      (store p i (x * invL)).bind fun q =>
        (incInt i).bind fun j => CmNormalize.scaleLoopInt32 invL k j q

/-- Lines 150-174, `CmNormalize(p, n)`, with the `int` counters. -/
def CmNormalizeInt32 (s : Scalar) (sqrt : T → T) (p : List T) (n : Nat) :
    Option (T × List T) :=
  (CmLengthInt32 sqrt p n).bind fun l =>
    let tol : T := CmNormalize.tol s
    if CmIsZero l tol then
      (store p 0 1).bind fun p1 =>
        (CmNormalize.zeroLoopInt32 (n - 1) 1 p1).map fun p2 => (l, p2)
    else
      let invL : T := 1 / l
      (CmNormalize.scaleLoopInt32 invL n 0 p).map fun p2 => (l, p2)

end Defs

section Lemmas

variable {T : Type} [LinearOrderedField T]

theorem CmAbsAt_eq_abs (s : Scalar) (x : T) : CmAbsAt s x = |x| := by
  cases s <;> rfl

omit [LinearOrderedField T] in
theorem store_eq_some (p : List T) (i : Nat) (v : T) (h : i < p.length) :
    store p i v = some (p.set i v) := by
  simp [store, h]

omit [LinearOrderedField T] in
theorem store_cons_succ (x : T) (p : List T) (i : Nat) (v : T) :
    store (x :: p) (i + 1) v = (store p i v).map fun q => x :: q := by
  by_cases h : i < p.length <;> simp [store, h]

/-- Moving the buffer one element to the left moves the counter with it. -/
theorem CmLengthSq.loop_cons (x : T) (p : List T) (k i : Nat) (l : T) :
    CmLengthSq.loop (x :: p) k (i + 1) l = CmLengthSq.loop p k i l := by
  induction k generalizing i l with
  | zero => rfl
  | succ k ih =>
    simp only [CmLengthSq.loop, List.getElem?_cons_succ]
    congr 1
    funext y
    exact ih (i + 1) (l + y * y)

/-- The loop of `CmLengthSq` from counter `0` adds the squares of the first `k`
components to the accumulator. -/
theorem CmLengthSq.loop_eq (p : List T) (k : Nat) (l : T) (h : k ≤ p.length) :
    CmLengthSq.loop p k 0 l = some (l + ((p.take k).map fun x => x * x).sum) := by
  induction p generalizing k l with
  | nil =>
    have hk : k = 0 := by simpa using h
    subst hk
    simp [CmLengthSq.loop]
  | cons x p ih =>
    cases k with
    | zero => simp [CmLengthSq.loop]
    | succ k =>
      have hk : k ≤ p.length := by simpa using h
      simp only [CmLengthSq.loop, List.getElem?_cons_zero, Option.some_bind,
        CmLengthSq.loop_cons, ih k (l + x * x) hk, List.take_succ_cons, List.map_cons,
        List.sum_cons]
      rw [add_assoc]

/-- The loop of `CmLengthSq` runs off the buffer when asked for more components
than there are. -/
theorem CmLengthSq.loop_eq_none (p : List T) (k : Nat) (l : T) (h : p.length < k) :
    CmLengthSq.loop p k 0 l = none := by
  induction p generalizing k l with
  | nil =>
    cases k with
    | zero => simp at h
    | succ k => simp [CmLengthSq.loop]
  | cons x p ih =>
    cases k with
    | zero => simp at h
    | succ k =>
      have hk : p.length < k := by simpa using h
      simp only [CmLengthSq.loop, List.getElem?_cons_zero, Option.some_bind,
        CmLengthSq.loop_cons, ih k (l + x * x) hk]

theorem CmLengthSq_eq (p : List T) (n : Nat) (h : n ≤ p.length) :
    CmLengthSq p n = some (((p.take n).map fun x => x * x).sum) := by
  rw [CmLengthSq, CmLengthSq.loop_eq p n 0 h, zero_add]

theorem CmLength_eq (sqrt : T → T) (p : List T) (n : Nat) (h : n ≤ p.length) :
    CmLength sqrt p n = some (sqrt (((p.take n).map fun x => x * x).sum)) := by
  rw [CmLength, CmLengthSq_eq p n h, Option.map_some']

/-- The loop of `CmLengthSq` from any counter, as an indexed sum. -/
theorem CmLengthSq.loop_eq_sum_range (p : List T) (k i : Nat) (l : T)
    (h : i + k ≤ p.length) :
    CmLengthSq.loop p k i l
      = some (l + ∑ j in Finset.range k, p.getD (i + j) 0 * p.getD (i + j) 0) := by
  induction k generalizing i l with
  | zero => simp [CmLengthSq.loop]
  | succ k ih =>
    have hi : i < p.length := by omega
    have hget : p[i]? = some (p.getD i 0) := by
      simp [List.getD_eq_getElem?_getD, List.getElem?_eq_getElem hi]
    simp only [CmLengthSq.loop, hget, Option.some_bind]
    rw [ih (i + 1) _ (by omega), Finset.sum_range_succ']
    have hidx : ∀ j, i + 1 + j = i + (j + 1) := fun j => by omega
    simp only [hidx, add_zero]
    rw [add_assoc, add_comm (p.getD i 0 * p.getD i 0)]

theorem numericLimitsMax_pos (s : Scalar) : (0 : T) < numericLimitsMax s := by
  cases s <;> norm_num [numericLimitsMax]

theorem CmDefaultTolerance_pos (s : Scalar) : (0 : T) < CmDefaultTolerance s := by
  cases s <;> norm_num [CmDefaultTolerance, kCmDefaultToleranceF, kCmDefaultToleranceD]

/-- The comparison that guards the clamp is `tol < default - default`, which no
positive `tol` satisfies: `CmNormalize` keeps `10 / max`. -/
theorem CmNormalize.tol_eq (s : Scalar) :
    (CmNormalize.tol s : T) = 10 / numericLimitsMax s := by
  have hpos : (0 : T) < 10 / numericLimitsMax s :=
    div_pos (by norm_num) (numericLimitsMax_pos s)
  simp [CmNormalize.tol, CmLess, hpos.le]

theorem CmNormalize.tol_pos (s : Scalar) : (0 : T) < CmNormalize.tol s := by
  rw [CmNormalize.tol_eq]
  exact div_pos (by norm_num) (numericLimitsMax_pos s)

theorem CmNormalize.zeroLoop_cons (x : T) (p : List T) (k i : Nat) :
    CmNormalize.zeroLoop k (i + 1) (x :: p)
      = (CmNormalize.zeroLoop k i p).map fun q => x :: q := by
  induction k generalizing i p with
  | zero => rfl
  | succ k ih =>
    simp only [CmNormalize.zeroLoop, store_cons_succ]
    cases hst : store p i 0 with
    | none => rfl
    | some q => simp [ih]

/-- The zeroing loop from counter `0` overwrites the first `k` components. -/
theorem CmNormalize.zeroLoop_eq (p : List T) (k : Nat) (h : k ≤ p.length) :
    CmNormalize.zeroLoop k 0 p = some (List.replicate k 0 ++ p.drop k) := by
  induction p generalizing k with
  | nil =>
    have hk : k = 0 := by simpa using h
    subst hk
    rfl
  | cons x p ih =>
    cases k with
    | zero => rfl
    | succ k =>
      have hk : k ≤ p.length := by simpa using h
      simp [CmNormalize.zeroLoop, store, CmNormalize.zeroLoop_cons, ih k hk,
        List.replicate_succ]

theorem CmNormalize.scaleLoop_cons (invL x : T) (p : List T) (k i : Nat) :
    CmNormalize.scaleLoop invL k (i + 1) (x :: p)
      = (CmNormalize.scaleLoop invL k i p).map fun q => x :: q := by
  induction k generalizing i p with
  | zero => rfl
  | succ k ih =>
    simp only [CmNormalize.scaleLoop, store_cons_succ, List.getElem?_cons_succ]
    cases hget : p[i]? with
    | none => rfl
    | some y =>
      simp only [Option.some_bind]
      cases hst : store p i (y * invL) with
      | none => rfl
      | some q => simp [ih]

/-- The scaling loop from counter `0` multiplies the first `k` components. -/
theorem CmNormalize.scaleLoop_eq (invL : T) (p : List T) (k : Nat) (h : k ≤ p.length) :
    CmNormalize.scaleLoop invL k 0 p
      = some ((p.take k).map (fun x => x * invL) ++ p.drop k) := by
  induction p generalizing k with
  | nil =>
    have hk : k = 0 := by simpa using h
    subst hk
    rfl
  | cons x p ih =>
    cases k with
    | zero => rfl
    | succ k =>
      have hk : k ≤ p.length := by simpa using h
      simp [CmNormalize.scaleLoop, store, CmNormalize.scaleLoop_cons, ih k hk]

/-- The degenerate branch, lines 159-163, on a buffer with a component `0`. -/
theorem CmNormalize.degenerate_eq (p : List T) (n : Nat) (hn : 1 ≤ n)
    (hlen : n ≤ p.length) :
    ((store p 0 1).bind fun p1 => CmNormalize.zeroLoop (n - 1) 1 p1)
      = some (1 :: (List.replicate (n - 1) 0 ++ p.drop n)) := by
  cases p with
  | nil => simp at hlen; omega
  | cons x p =>
    obtain ⟨m, rfl⟩ : ∃ m, n = m + 1 := ⟨n - 1, by omega⟩
    have hm : m ≤ p.length := by simpa using hlen
    simp [store, CmNormalize.zeroLoop_cons, CmNormalize.zeroLoop_eq p m hm]

theorem sum_sq_map_mul (c : T) (xs : List T) :
    ((xs.map fun x => x * c).map fun x => x * x).sum
      = c * c * (xs.map fun x => x * x).sum := by
  induction xs with
  | nil => simp
  | cons x xs ih =>
    simp only [List.map_cons, List.sum_cons, ih]
    ring

theorem sum_sq_replicate_zero (k : Nat) :
    (((List.replicate k (0 : T)).map fun x => x * x)).sum = 0 := by
  induction k with
  | zero => simp
  | succ k ih => simp [List.replicate_succ, ih]

theorem Rat_sqrt_sq (q : ℚ) (hq : 0 ≤ q) : Rat.sqrt (q * q) = q := by
  rw [Rat.sqrt_eq, abs_of_nonneg hq]

/-- The scaling branch, lines 167-171, as a whole call. -/
theorem CmNormalize_scales_aux (s : Scalar) (sqrt : T → T) (p : List T) (n : Nat) (l : T)
    (hlen : n ≤ p.length) (hl : CmLength sqrt p n = some l)
    (hz : CmIsZero l (CmNormalize.tol s) = false) :
    CmNormalize s sqrt p n
      = some (l, (p.take n).map (fun x => x * (1 / l)) ++ p.drop n) := by
  simp [CmNormalize, hl, hz, CmNormalize.scaleLoop_eq _ p n hlen]

/-- Unit length of the buffer `CmNormalize` leaves, for any `sqrt` that is exact
on the squared length of the input. -/
theorem CmNormalize.unit_of_exact_sqrt (s : Scalar) (sqrt : T → T) (p : List T) (n : Nat)
    (hn : 1 ≤ n) (hlen : n ≤ p.length)
    (hs : sqrt (((p.take n).map fun x => x * x).sum)
            * sqrt (((p.take n).map fun x => x * x).sum)
          = ((p.take n).map fun x => x * x).sum) :
    ∃ l q, CmNormalize s sqrt p n = some (l, q) ∧ CmLengthSq q n = some 1 := by
  have hl := CmLength_eq sqrt p n hlen
  generalize hS : ((p.take n).map fun x => x * x).sum = S at hs hl
  cases hz : CmIsZero (sqrt S) (CmNormalize.tol s) with
  | true =>
    have hd := CmNormalize.degenerate_eq p n hn hlen
    cases hst : store p 0 1 with
    | none => simp [hst] at hd
    | some p1 =>
      simp only [hst, Option.some_bind] at hd
      refine ⟨sqrt S, 1 :: (List.replicate (n - 1) 0 ++ p.drop n), ?_, ?_⟩
      · simp [CmNormalize, hl, hz, hst, hd]
      · have hq : n ≤ (1 :: (List.replicate (n - 1) (0 : T) ++ p.drop n)).length := by
          simp only [List.length_cons, List.length_append, List.length_replicate,
            List.length_drop]
          omega
        obtain ⟨m, rfl⟩ : ∃ m, n = m + 1 := ⟨n - 1, by omega⟩
        rw [CmLengthSq_eq _ _ hq]
        simp [List.take_append_eq_append_take, sum_sq_replicate_zero]
  | false =>
    have hne : sqrt S ≠ 0 := by
      intro h0
      have hpos := CmNormalize.tol_pos (T := T) s
      simp [CmIsZero, h0, hpos.le] at hz
    refine ⟨sqrt S, (p.take n).map (fun x => x * (1 / sqrt S)) ++ p.drop n, ?_, ?_⟩
    · simp [CmNormalize, hl, hz, CmNormalize.scaleLoop_eq _ p n hlen]
    · have hq : n ≤ ((p.take n).map (fun x => x * (1 / sqrt S)) ++ p.drop n).length := by
        simp only [List.length_append, List.length_map, List.length_take, List.length_drop]
        omega
      have htake : (((p.take n).map (fun x => x * (1 / sqrt S))) ++ p.drop n).take n
          = (p.take n).map (fun x => x * (1 / sqrt S)) := by
        rw [List.take_append_eq_append_take]
        simp [List.length_take, Nat.min_eq_left hlen]
      rw [CmLengthSq_eq _ _ hq, htake, sum_sq_map_mul, hS]
      congr 1
      field_simp
      exact hs.symm

theorem sum_sq_nonneg (xs : List T) : 0 ≤ (xs.map fun x => x * x).sum := by
  refine List.sum_nonneg ?_
  intro y hy
  obtain ⟨x, -, rfl⟩ := List.mem_map.mp hy
  exact mul_self_nonneg x

/-- The byte loop answers `true` exactly when the `k` bytes from counter `i` on
agree pairwise. -/
theorem CmEqualsPerByte.loop_iff (pBytes1 pBytes2 : Nat → Nat) (k i : Nat) :
    CmEqualsPerByte.loop pBytes1 pBytes2 k i = true
      ↔ ∀ j, j < k → pBytes1 (i + j) = pBytes2 (i + j) := by
  induction k generalizing i with
  | zero => simp [CmEqualsPerByte.loop]
  | succ k ih =>
    by_cases h : pBytes1 i = pBytes2 i
    · simp only [CmEqualsPerByte.loop, h, ne_eq, not_true_eq_false, if_false, ih (i + 1)]
      constructor
      · intro hall j hj
        cases j with
        | zero => simpa using h
        | succ j =>
          have := hall j (by omega)
          rwa [show i + 1 + j = i + (j + 1) by omega] at this
      · intro hall j hj
        have := hall (j + 1) (by omega)
        rwa [show i + (j + 1) = i + 1 + j by omega] at this
    · simp only [CmEqualsPerByte.loop, h, ne_eq, not_false_eq_true, if_true]
      constructor
      · intro hf
        exact absurd hf (by decide)
      · intro hall
        exact absurd (by simpa using hall 0 (by omega)) h

theorem CmAbs_eq_abs (x : T) : CmAbs x = |x| := by
  unfold CmAbs
  split
  · next h => exact (abs_of_neg h).symm
  · next h => exact (abs_of_nonneg (not_lt.mp h)).symm

theorem CmEquals_iff (s : Scalar) (x1 x2 tol : T) :
    CmEquals s x1 x2 tol = true ↔ x2 - tol ≤ x1 ∧ x1 ≤ x2 + tol := by
  rw [CmEquals, decide_eq_true_iff, CmAbsAt_eq_abs, abs_le]
  constructor <;> rintro ⟨h1, h2⟩ <;> constructor <;> linarith

theorem CmNormalize.tol_lt_one (s : Scalar) : (CmNormalize.tol s : T) < 1 := by
  rw [CmNormalize.tol_eq, div_lt_one (numericLimitsMax_pos s)]
  cases s <;> norm_num [numericLimitsMax]

/-- On a buffer with at least `n ≥ 1` components `CmNormalize` returns, and the
buffer keeps its size. -/
theorem CmNormalize.returns_of_pos (s : Scalar) (sqrt : T → T) (p : List T) (n : Nat)
    (hn : 1 ≤ n) (hlen : n ≤ p.length) :
    ∃ l q, CmNormalize s sqrt p n = some (l, q) ∧ q.length = p.length := by
  obtain ⟨l, hl⟩ : ∃ l, CmLength sqrt p n = some l := ⟨_, CmLength_eq sqrt p n hlen⟩
  cases hz : CmIsZero l (CmNormalize.tol s) with
  | true =>
    have hd := CmNormalize.degenerate_eq p n hn hlen
    cases hst : store p 0 1 with
    | none => simp [hst] at hd
    | some p1 =>
      simp only [hst, Option.some_bind] at hd
      refine ⟨l, 1 :: (List.replicate (n - 1) 0 ++ p.drop n), ?_, ?_⟩
      · simp [CmNormalize, hl, hz, hst, hd]
      · simp only [List.length_cons, List.length_append, List.length_replicate,
          List.length_drop]
        omega
  | false =>
    refine ⟨l, _, CmNormalize_scales_aux s sqrt p n l hlen hl hz, ?_⟩
    simp only [List.length_append, List.length_map, List.length_take, List.length_drop]
    omega

/-- A defined `CmLengthSq` has read inside the buffer only. -/
theorem CmLengthSq_le_length (p : List T) (n : Nat) (v : T) (h : CmLengthSq p n = some v) :
    n ≤ p.length := by
  by_contra hlt
  have hnone := CmLengthSq.loop_eq_none p n 0 (not_le.mp hlt)
  rw [CmLengthSq, hnone] at h
  exact absurd h (by simp)

/-- A second `CmNormalize` on a buffer of squared length `1` changes nothing and
returns `1`, for any `sqrt` with `sqrt 1 = 1`. -/
theorem CmNormalize.of_unit (s : Scalar) (sqrt : T → T) (hsqrt : sqrt 1 = 1)
    (q : List T) (n : Nat) (hq : CmLengthSq q n = some 1) :
    CmNormalize s sqrt q n = some (1, q) := by
  have hlen := CmLengthSq_le_length q n 1 hq
  have hl : CmLength sqrt q n = some 1 := by
    rw [CmLength, hq, Option.map_some', hsqrt]
  have hz : CmIsZero (1 : T) (CmNormalize.tol s) = false := by
    have hlt := CmNormalize.tol_lt_one (T := T) s
    simp [CmIsZero, hlt]
  rw [CmNormalize_scales_aux s sqrt q n 1 hlen hl hz]
  simp

theorem roundHalfEven_le_of_lt (x : ℚ) (m : ℤ) (h : x < m + 1 / 2) : roundHalfEven x ≤ m := by
  have hf : ⌊x⌋ ≤ m := by
    rw [Int.floor_le_iff]
    linarith
  unfold roundHalfEven
  rcases hf.lt_or_eq with hlt | heq
  · have : ⌊x⌋ + 1 ≤ m := hlt
    simp only
    split_ifs <;> omega
  · have hr : x - (⌊x⌋ : ℚ) < 1 / 2 := by
      rw [heq]
      linarith
    simp only [hr, if_true]
    exact hf

theorem roundHalfEven_ge_of_lt (x : ℚ) (m : ℤ) (h : (m : ℚ) - 1 / 2 < x) : m ≤ roundHalfEven x := by
  have hf : m - 1 ≤ ⌊x⌋ := by
    rw [Int.le_floor]
    push_cast
    linarith
  unfold roundHalfEven
  rcases hf.lt_or_eq with hlt | heq
  · have : m ≤ ⌊x⌋ := by omega
    simp only
    split_ifs <;> omega
  · have hr : 1 / 2 < x - (⌊x⌋ : ℚ) := by
      rw [← heq]
      push_cast
      linarith
    have hr' : ¬ x - (⌊x⌋ : ℚ) < 1 / 2 := not_lt.mpr hr.le
    simp only [hr, hr', if_true, if_false]
    omega

theorem roundHalfEven_eq_of_near (x : ℚ) (m : ℤ) (h : |x - m| < 1 / 2) : roundHalfEven x = m := by
  rw [abs_lt] at h
  exact le_antisymm (roundHalfEven_le_of_lt x m (by linarith))
    (roundHalfEven_ge_of_lt x m (by linarith))

theorem roundHalfEven_intCast (m : ℤ) : roundHalfEven (m : ℚ) = m :=
  roundHalfEven_eq_of_near _ m (by simp)

theorem roundHalfEven_sub_le (x : ℚ) : x - 1 / 2 ≤ roundHalfEven x := by
  unfold roundHalfEven
  have h1 := Int.floor_le x
  have h2 := Int.lt_floor_add_one x
  simp only
  split_ifs with ha hb
  · linarith
  · push_cast; linarith
  · linarith
  · push_cast; linarith

theorem roundHalfEven_le_add (x : ℚ) : (roundHalfEven x : ℚ) ≤ x + 1 / 2 := by
  unfold roundHalfEven
  have h1 := Int.floor_le x
  have h2 := Int.lt_floor_add_one x
  simp only
  split_ifs with ha hb
  · linarith
  · push_cast; linarith
  · linarith
  · push_cast; linarith

theorem roundHalfEven_mono : Monotone roundHalfEven := by
  intro x y hxy
  by_contra hlt
  rw [not_le] at hlt
  have h1 : roundHalfEven y + 1 ≤ roundHalfEven x := hlt
  have h1' : (roundHalfEven y : ℚ) + 1 ≤ roundHalfEven x := by exact_mod_cast h1
  have h2 := roundHalfEven_le_add x
  have h3 := roundHalfEven_sub_le y
  have hx : x = y := le_antisymm hxy (by linarith)
  rw [hx] at hlt
  exact lt_irrefl _ hlt


theorem roundHalfEven_nonneg (x : ℚ) (h : 0 ≤ x) : 0 ≤ roundHalfEven x := by
  have := roundHalfEven_mono h
  rwa [show roundHalfEven 0 = 0 from roundHalfEven_intCast 0] at this

theorem roundMagnitude_zero (prec : ℕ) (emin : ℤ) : roundMagnitude prec emin 0 = 0 := by
  have h : roundHalfEven 0 = 0 := roundHalfEven_intCast 0
  simp [roundMagnitude, h]

theorem roundMagnitude_nonneg (prec : ℕ) (emin : ℤ) (a : ℚ) (h : 0 ≤ a) :
    0 ≤ roundMagnitude prec emin a := by
  unfold roundMagnitude
  have hu : (0 : ℚ) < 2 ^ (max (Int.log 2 a) emin - ((prec : ℤ) - 1)) := by positivity
  have hr := roundHalfEven_nonneg (a / 2 ^ (max (Int.log 2 a) emin - ((prec : ℤ) - 1)))
    (div_nonneg h hu.le)
  have hr' : (0 : ℚ) ≤ roundHalfEven (a / 2 ^ (max (Int.log 2 a) emin - ((prec : ℤ) - 1))) := by
    exact_mod_cast hr
  exact mul_nonneg hr' hu.le

/-- A magnitude with exponent `e` rounds to at most `2 ^ (e + 1)`. -/
theorem roundMagnitude_le_zpow (prec : ℕ) (emin : ℤ) (a : ℚ) :
    roundMagnitude prec emin a ≤ 2 ^ (max (Int.log 2 a) emin + 1) := by
  unfold roundMagnitude
  set e : ℤ := max (Int.log 2 a) emin with he
  have hu : (0 : ℚ) < 2 ^ (e - ((prec : ℤ) - 1)) := by positivity
  have hmul : (2 : ℚ) ^ (e - ((prec : ℤ) - 1)) * ((2 ^ prec : ℤ) : ℚ) = 2 ^ (e + 1) := by
    push_cast
    rw [← zpow_natCast, ← zpow_add₀ (two_ne_zero)]
    congr 1
    ring
  have ha : a < 2 ^ (e + 1) := by
    have h1 : a < ((2 : ℕ) : ℚ) ^ (Int.log 2 a + 1) := Int.lt_zpow_succ_log_self (by norm_num) a
    have h2 : ((2 : ℕ) : ℚ) ^ (Int.log 2 a + 1) ≤ 2 ^ (e + 1) := by
      rw [Nat.cast_ofNat]
      exact zpow_le_zpow_right₀ (by norm_num) (by have := le_max_left (Int.log 2 a) emin; omega)
    exact lt_of_lt_of_le h1 h2
  have hdiv : a / 2 ^ (e - ((prec : ℤ) - 1)) ≤ ((2 ^ prec : ℤ) : ℚ) := by
    rw [div_le_iff₀ hu, mul_comm, hmul]
    exact ha.le
  have hr := roundHalfEven_mono hdiv
  rw [roundHalfEven_intCast] at hr
  have hr' : (roundHalfEven (a / 2 ^ (e - ((prec : ℤ) - 1))) : ℚ) ≤ ((2 ^ prec : ℤ) : ℚ) := by
    exact_mod_cast hr
  calc (roundHalfEven (a / 2 ^ (e - ((prec : ℤ) - 1))) : ℚ) * 2 ^ (e - ((prec : ℤ) - 1))
      ≤ ((2 ^ prec : ℤ) : ℚ) * 2 ^ (e - ((prec : ℤ) - 1)) := mul_le_mul_of_nonneg_right hr' hu.le
    _ = 2 ^ (e + 1) := by rw [mul_comm, hmul]

/-- A positive magnitude whose own exponent `e` is used rounds to at least `2 ^ e`. -/
theorem zpow_le_roundMagnitude (prec : ℕ) (hprec : 1 ≤ prec) (emin : ℤ) (a : ℚ) (ha : 0 < a)
    (hlog : emin ≤ Int.log 2 a) :
    2 ^ (Int.log 2 a) ≤ roundMagnitude prec emin a := by
  unfold roundMagnitude
  rw [max_eq_left hlog]
  set e : ℤ := Int.log 2 a with he
  have hu : (0 : ℚ) < 2 ^ (e - ((prec : ℤ) - 1)) := by positivity
  have hmul : (2 : ℚ) ^ (e - ((prec : ℤ) - 1)) * ((2 ^ (prec - 1) : ℤ) : ℚ) = 2 ^ e := by
    push_cast
    rw [← zpow_natCast, ← zpow_add₀ (two_ne_zero)]
    congr 1
    rw [Nat.cast_sub hprec]
    push_cast
    ring
  have hle : (2 : ℚ) ^ e ≤ a := by
    have h1 : ((2 : ℕ) : ℚ) ^ Int.log 2 a ≤ a := Int.zpow_log_le_self (by norm_num) ha
    rwa [Nat.cast_ofNat] at h1
  have hdiv : ((2 ^ (prec - 1) : ℤ) : ℚ) ≤ a / 2 ^ (e - ((prec : ℤ) - 1)) := by
    rw [le_div_iff₀ hu, mul_comm, hmul]
    exact hle
  have hr := roundHalfEven_mono hdiv
  rw [roundHalfEven_intCast] at hr
  have hr' : ((2 ^ (prec - 1) : ℤ) : ℚ) ≤ (roundHalfEven (a / 2 ^ (e - ((prec : ℤ) - 1))) : ℚ) := by
    exact_mod_cast hr
  calc (2 : ℚ) ^ e = ((2 ^ (prec - 1) : ℤ) : ℚ) * 2 ^ (e - ((prec : ℤ) - 1)) := by
        rw [mul_comm, hmul]
    _ ≤ _ := mul_le_mul_of_nonneg_right hr' hu.le

theorem roundMagnitude_mono (prec : ℕ) (hprec : 1 ≤ prec) (emin : ℤ) (a b : ℚ)
    (ha : 0 ≤ a) (hab : a ≤ b) :
    roundMagnitude prec emin a ≤ roundMagnitude prec emin b := by
  rcases ha.lt_or_eq with hpos | hzero
  · have hb : 0 < b := lt_of_lt_of_le hpos hab
    have hlog : Int.log 2 a ≤ Int.log 2 b := Int.log_mono_right hpos hab
    have he : max (Int.log 2 a) emin ≤ max (Int.log 2 b) emin := max_le_max hlog le_rfl
    rcases he.lt_or_eq with hlt | heq
    · have hb_log : emin ≤ Int.log 2 b := by
        by_contra hcon
        rw [not_le] at hcon
        rw [max_eq_right hcon.le] at hlt
        exact absurd hlt (not_lt.mpr (le_max_right _ _))
      have hmax : max (Int.log 2 b) emin = Int.log 2 b := max_eq_left hb_log
      rw [hmax] at hlt
      calc roundMagnitude prec emin a ≤ 2 ^ (max (Int.log 2 a) emin + 1) :=
            roundMagnitude_le_zpow prec emin a
        _ ≤ 2 ^ (Int.log 2 b) := zpow_le_zpow_right₀ (by norm_num) (by omega)
        _ ≤ roundMagnitude prec emin b := zpow_le_roundMagnitude prec hprec emin b hb hb_log
    · unfold roundMagnitude
      rw [heq]
      have hu : (0 : ℚ) < 2 ^ (max (Int.log 2 b) emin - ((prec : ℤ) - 1)) := by positivity
      have hdiv : a / 2 ^ (max (Int.log 2 b) emin - ((prec : ℤ) - 1))
          ≤ b / 2 ^ (max (Int.log 2 b) emin - ((prec : ℤ) - 1)) :=
        div_le_div_of_nonneg_right hab hu.le
      have hr := roundHalfEven_mono hdiv
      have hr' : (roundHalfEven (a / 2 ^ (max (Int.log 2 b) emin - ((prec : ℤ) - 1))) : ℚ)
          ≤ roundHalfEven (b / 2 ^ (max (Int.log 2 b) emin - ((prec : ℤ) - 1))) := by
        exact_mod_cast hr
      exact mul_le_mul_of_nonneg_right hr' hu.le
  · rw [← hzero, roundMagnitude_zero]
    exact roundMagnitude_nonneg prec emin b (hzero ▸ hab)

theorem roundBinary_zero (prec : ℕ) (emin : ℤ) : roundBinary prec emin 0 = 0 := by
  simp [roundBinary, roundMagnitude_zero]

theorem roundBinary_mono (prec : ℕ) (hprec : 1 ≤ prec) (emin : ℤ) :
    Monotone (roundBinary prec emin) := by
  intro x y hxy
  unfold roundBinary
  by_cases hx : 0 ≤ x
  · have hy : 0 ≤ y := le_trans hx hxy
    simp only [hx, hy, if_true]
    exact roundMagnitude_mono prec hprec emin x y hx hxy
  · by_cases hy : 0 ≤ y
    · simp only [hx, hy, if_true, if_false]
      have h1 := roundMagnitude_nonneg prec emin (-x) (by linarith)
      have h2 := roundMagnitude_nonneg prec emin y hy
      linarith
    · simp only [hx, hy, if_false]
      have := roundMagnitude_mono prec hprec emin (-y) (-x) (by linarith) (by linarith)
      linarith

theorem binary64Round_mono : Monotone binary64Round :=
  roundBinary_mono 53 (by norm_num) (-1022)

theorem binary64Round_zero : binary64Round 0 = 0 := roundBinary_zero 53 (-1022)

/-- Evaluation of `roundMagnitude` at a magnitude in the binade of exponent `k`
(for `k = emin` also below it) that lies within half a unit of `m` units. -/
theorem roundMagnitude_eq (prec : ℕ) (emin : ℤ) (a : ℚ) (k m : ℤ) (ha : 0 < a)
    (hk : emin ≤ k) (hlo : k = emin ∨ 2 ^ k ≤ a) (hhi : a < 2 ^ (k + 1))
    (hm : |a / 2 ^ (k - ((prec : ℤ) - 1)) - m| < 1 / 2) :
    roundMagnitude prec emin a = m * 2 ^ (k - ((prec : ℤ) - 1)) := by
  have hlog_lt : Int.log 2 a < k + 1 := by
    rw [← Int.lt_zpow_iff_log_lt (by norm_num) ha, Nat.cast_ofNat]
    exact hhi
  have he : max (Int.log 2 a) emin = k := by
    rcases hlo with h | h
    · rw [h] at hlog_lt ⊢
      exact max_eq_right (by omega)
    · have : k ≤ Int.log 2 a := by
        rw [← Int.zpow_le_iff_le_log (by norm_num) ha, Nat.cast_ofNat]
        exact h
      rw [max_eq_left (by omega)]
      omega
  unfold roundMagnitude
  simp only [he]
  rw [roundHalfEven_eq_of_near _ m hm]

theorem binary32Round_mono : Monotone binary32Round :=
  roundBinary_mono 24 (by norm_num) (-126)

/-- In exact arithmetic, for `tol ≥ 0`, exactly one of `less`, `equals`,
`greater` is true, `lessOrEqual` is `less` or `equals`, and `greaterOrEqual`
is `greater` or `equals`. -/
theorem Cm_trichotomy_exact (s : Scalar) (x1 x2 tol : T) (htol : 0 ≤ tol) :
    ((CmLess x1 x2 tol = true ∧ CmEquals s x1 x2 tol = false
          ∧ CmGreater x1 x2 tol = false)
        ∨ (CmLess x1 x2 tol = false ∧ CmEquals s x1 x2 tol = true
          ∧ CmGreater x1 x2 tol = false)
        ∨ (CmLess x1 x2 tol = false ∧ CmEquals s x1 x2 tol = false
          ∧ CmGreater x1 x2 tol = true))
      ∧ CmLessOrEqual x1 x2 tol = (CmLess x1 x2 tol || CmEquals s x1 x2 tol)
      ∧ CmGreaterOrEqual x1 x2 tol = (CmGreater x1 x2 tol || CmEquals s x1 x2 tol) := by
  have hE := CmEquals_iff s x1 x2 tol
  rcases lt_or_le x1 (x2 - tol) with h1 | h1
  · have hL : CmLess x1 x2 tol = true := decide_eq_true h1
    have hEq : CmEquals s x1 x2 tol = false := by
      rw [Bool.eq_false_iff, Ne, hE]
      rintro ⟨h, -⟩
      exact absurd h1 (not_lt.mpr h)
    have hG : CmGreater x1 x2 tol = false :=
      decide_eq_false (by rw [gt_iff_lt, not_lt]; linarith)
    have hLE : CmLessOrEqual x1 x2 tol = true := decide_eq_true (by linarith)
    have hGE : CmGreaterOrEqual x1 x2 tol = false :=
      decide_eq_false (by rw [ge_iff_le, not_le]; exact h1)
    simp [hL, hEq, hG, hLE, hGE]
  · have hL : CmLess x1 x2 tol = false := decide_eq_false (not_lt.mpr h1)
    have hGE : CmGreaterOrEqual x1 x2 tol = true := decide_eq_true h1
    rcases le_or_lt x1 (x2 + tol) with h2 | h2
    · have hEq : CmEquals s x1 x2 tol = true := hE.mpr ⟨h1, h2⟩
      have hG : CmGreater x1 x2 tol = false :=
        decide_eq_false (by rw [gt_iff_lt, not_lt]; exact h2)
      have hLE : CmLessOrEqual x1 x2 tol = true := decide_eq_true h2
      simp [hL, hEq, hG, hLE, hGE]
    · have hEq : CmEquals s x1 x2 tol = false := by
        rw [Bool.eq_false_iff, Ne, hE]
        rintro ⟨-, h⟩
        exact absurd h2 (not_lt.mpr h)
      have hG : CmGreater x1 x2 tol = true := decide_eq_true h2
      have hLE : CmLessOrEqual x1 x2 tol = false :=
        decide_eq_false (not_le.mpr h2)
      simp [hL, hEq, hG, hLE, hGE]

/-- With any monotone rounding, for `tol ≥ 0`, exactly one of `less`,
`lessOrEqual` and `greaterOrEqual` together, `greater` is true. -/
theorem Cm_trichotomy_of_monotone (fl : T → T) (hfl : Monotone fl) (x1 x2 tol : T)
    (htol : 0 ≤ tol) :
    ((CmLess.rounded fl x1 x2 tol = true
          ∧ (CmLessOrEqual.rounded fl x1 x2 tol
              && CmGreaterOrEqual.rounded fl x1 x2 tol) = false
          ∧ CmGreater.rounded fl x1 x2 tol = false)
        ∨ (CmLess.rounded fl x1 x2 tol = false
          ∧ (CmLessOrEqual.rounded fl x1 x2 tol
              && CmGreaterOrEqual.rounded fl x1 x2 tol) = true
          ∧ CmGreater.rounded fl x1 x2 tol = false)
        ∨ (CmLess.rounded fl x1 x2 tol = false
          ∧ (CmLessOrEqual.rounded fl x1 x2 tol
              && CmGreaterOrEqual.rounded fl x1 x2 tol) = false
          ∧ CmGreater.rounded fl x1 x2 tol = true))
      ∧ CmLessOrEqual.rounded fl x1 x2 tol = !CmGreater.rounded fl x1 x2 tol
      ∧ CmGreaterOrEqual.rounded fl x1 x2 tol = !CmLess.rounded fl x1 x2 tol := by
  have hab : fl (x2 - tol) ≤ fl (x2 + tol) := hfl (by linarith)
  rcases lt_or_le x1 (fl (x2 - tol)) with h1 | h1
  · have hL : CmLess.rounded fl x1 x2 tol = true := decide_eq_true h1
    have hGE : CmGreaterOrEqual.rounded fl x1 x2 tol = false :=
      decide_eq_false (by rw [ge_iff_le, not_le]; exact h1)
    have hLE : CmLessOrEqual.rounded fl x1 x2 tol = true :=
      decide_eq_true (le_trans h1.le hab)
    have hG : CmGreater.rounded fl x1 x2 tol = false :=
      decide_eq_false (by rw [gt_iff_lt, not_lt]; exact le_trans h1.le hab)
    simp [hL, hGE, hLE, hG]
  · have hL : CmLess.rounded fl x1 x2 tol = false := decide_eq_false (not_lt.mpr h1)
    have hGE : CmGreaterOrEqual.rounded fl x1 x2 tol = true := decide_eq_true h1
    rcases le_or_lt x1 (fl (x2 + tol)) with h2 | h2
    · have hLE : CmLessOrEqual.rounded fl x1 x2 tol = true := decide_eq_true h2
      have hG : CmGreater.rounded fl x1 x2 tol = false :=
        decide_eq_false (by rw [gt_iff_lt, not_lt]; exact h2)
      simp [hL, hGE, hLE, hG]
    · have hLE : CmLessOrEqual.rounded fl x1 x2 tol = false :=
        decide_eq_false (not_le.mpr h2)
      have hG : CmGreater.rounded fl x1 x2 tol = true := decide_eq_true h2
      simp [hL, hGE, hLE, hG]

/-- The binary64 numbers `0.1` and `1.1`. -/
theorem binary64Round_tenth :
    binary64Round (1 / 10) = 3602879701896397 / 2 ^ 55
      ∧ binary64Round (11 / 10) = 4953959590107546 / 2 ^ 52 := by
  constructor
  · have h := roundMagnitude_eq 53 (-1022) (1 / 10) (-4) 7205759403792794
      (by norm_num) (by norm_num) (Or.inr (by norm_num)) (by norm_num)
      (by rw [abs_lt]; constructor <;> norm_num)
    norm_num [binary64Round, roundBinary] at h ⊢
    rw [h]
  · have h := roundMagnitude_eq 53 (-1022) (11 / 10) 0 4953959590107546
      (by norm_num) (by norm_num) (Or.inr (by norm_num)) (by norm_num)
      (by rw [abs_lt]; constructor <;> norm_num)
    norm_num [binary64Round, roundBinary] at h ⊢
    rw [h]

/-- In binary64, `1.1 - 1` is exact and `0.1 - 1.1` rounds to `-1`. -/
theorem binary64Round_sub_examples :
    binary64Round (4953959590107546 / 2 ^ 52 - 1) = 4953959590107546 / 2 ^ 52 - 1
      ∧ binary64Round (3602879701896397 / 2 ^ 55 - 4953959590107546 / 2 ^ 52) = -1 := by
  constructor
  · have h := roundMagnitude_eq 53 (-1022) (4953959590107546 / 2 ^ 52 - 1) (-4)
      7205759403792800
      (by norm_num) (by norm_num) (Or.inr (by norm_num)) (by norm_num)
      (by rw [abs_lt]; constructor <;> norm_num)
    norm_num [binary64Round, roundBinary] at h ⊢
    rw [h]
  · have h := roundMagnitude_eq 53 (-1022) (36028797018963971 / 2 ^ 55) 0 (2 ^ 52)
      (by norm_num) (by norm_num) (Or.inr (by norm_num)) (by norm_num)
      (by rw [abs_lt]; constructor <;> norm_num)
    norm_num [binary64Round, roundBinary] at h ⊢
    rw [h]

/-- The rounded loop of `CmLengthSq` inside the buffer: it returns, keeps a
non-negative accumulator non-negative, and keeps a zero accumulator zero over
zero components. -/
theorem CmLengthSq.roundedLoop_spec (fl : T → T) (hfl : Monotone fl) (h0 : fl 0 = 0)
    (p : List T) (k i : Nat) (l : T) (h : i + k ≤ p.length) :
    ∃ r, CmLengthSq.roundedLoop fl p k i l = some r ∧ (0 ≤ l → 0 ≤ r)
      ∧ (l = 0 → (∀ j, j < k → p.getD (i + j) 0 = 0) → r = 0) := by
  induction k generalizing i l with
  | zero => exact ⟨l, rfl, fun hl => hl, fun hl _ => hl⟩
  | succ k ih =>
    have hi : i < p.length := by omega
    have hget : p[i]? = some (p.getD i 0) := by
      simp [List.getD_eq_getElem?_getD, List.getElem?_eq_getElem hi]
    obtain ⟨r, hr, hnn, hz⟩ := ih (i + 1) (fl (l + fl (p.getD i 0 * p.getD i 0))) (by omega)
    refine ⟨r, ?_, ?_, ?_⟩
    · simp only [CmLengthSq.roundedLoop, hget, Option.some_bind]
      exact hr
    · intro hl
      apply hnn
      have hsq : 0 ≤ fl (p.getD i 0 * p.getD i 0) := by
        have := hfl (mul_self_nonneg (p.getD i 0))
        rwa [h0] at this
      have := hfl (add_nonneg hl hsq)
      rwa [h0] at this
    · intro hl hall
      apply hz
      · have hx : p.getD i 0 = 0 := by simpa using hall 0 (by omega)
        rw [hl, hx, mul_zero, h0, add_zero, h0]
      · intro j hj
        have := hall (j + 1) (by omega)
        rwa [show i + (j + 1) = i + 1 + j by omega] at this

/-- Without rounding the rounded loop is the exact loop. -/
theorem CmLengthSq.roundedLoop_id (p : List T) (k i : Nat) (l : T) :
    CmLengthSq.roundedLoop id p k i l = CmLengthSq.loop p k i l := by
  induction k generalizing i l with
  | zero => rfl
  | succ k ih =>
    simp only [CmLengthSq.roundedLoop, CmLengthSq.loop, id]
    congr 1
    funext x
    exact ih (i + 1) (l + x * x)

/-- In binary64, `2^-600` is a number and its square underflows to `0`. -/
theorem binary64Round_underflow :
    binary64Round (1 / 2 ^ 600) = 1 / 2 ^ 600
      ∧ binary64Round (1 / 2 ^ 600 * (1 / 2 ^ 600)) = 0 := by
  constructor
  · have h := roundMagnitude_eq 53 (-1022) (1 / 2 ^ 600) (-600) (2 ^ 52)
      (by positivity) (by norm_num) (Or.inr (by norm_num)) (by norm_num)
      (by rw [abs_lt]; constructor <;> norm_num)
    norm_num [binary64Round, roundBinary] at h ⊢
    rw [h]
  · have h := roundMagnitude_eq 53 (-1022) (1 / 2 ^ 600 * (1 / 2 ^ 600)) (-1022) 0
      (by positivity) (by norm_num) (Or.inl rfl) (by norm_num)
      (by rw [abs_lt]; constructor <;> norm_num)
    norm_num [binary64Round, roundBinary] at h ⊢
    rw [h]

theorem incInt_of_lt (i : Nat) (h : i < INT_MAX) : incInt i = some (i + 1) := by
  simp [incInt, h]

theorem incInt_of_ge (i : Nat) (h : INT_MAX ≤ i) : incInt i = none := by
  simp [incInt, not_lt.mpr h]

/-- While the counter stays within `int`, the loop with the `int` counter is the
loop with the natural-number counter. -/
theorem CmLengthSq.loopInt32_eq (p : List T) (k i : Nat) (l : T) (h : i + k ≤ INT_MAX) :
    CmLengthSq.loopInt32 p k i l = CmLengthSq.loop p k i l := by
  induction k generalizing i l with
  | zero => rfl
  | succ k ih =>
    simp only [CmLengthSq.loopInt32, CmLengthSq.loop, incInt_of_lt i (by omega),
      Option.some_bind]
    congr 1
    funext x
    exact ih (i + 1) (l + x * x) (by omega)

/-- A loop that has to count past `INT_MAX` does not return. -/
theorem CmLengthSq.loopInt32_none (p : List T) (k i : Nat) (l : T) (hi : i ≤ INT_MAX)
    (h : INT_MAX < i + k) :
    CmLengthSq.loopInt32 p k i l = none := by
  induction k generalizing i l with
  | zero => omega
  | succ k ih =>
    simp only [CmLengthSq.loopInt32]
    cases hget : p[i]? with
    | none => rfl
    | some x =>
      rcases hi.lt_or_eq with hlt | heq
      · simp only [Option.some_bind, incInt_of_lt i hlt]
        exact ih (i + 1) (l + x * x) hlt (by omega)
      · simp only [Option.some_bind, incInt_of_ge i (by omega), Option.none_bind]

theorem CmNormalize.zeroLoopInt32_eq (k i : Nat) (p : List T) (h : i + k ≤ INT_MAX) :
    CmNormalize.zeroLoopInt32 k i p = CmNormalize.zeroLoop k i p := by
  induction k generalizing i p with
  | zero => rfl
  | succ k ih =>
    simp only [CmNormalize.zeroLoopInt32, CmNormalize.zeroLoop, incInt_of_lt i (by omega),
      Option.some_bind]
    congr 1
    funext q
    exact ih (i + 1) q (by omega)

theorem CmNormalize.scaleLoopInt32_eq (invL : T) (k i : Nat) (p : List T)
    (h : i + k ≤ INT_MAX) :
    CmNormalize.scaleLoopInt32 invL k i p = CmNormalize.scaleLoop invL k i p := by
  induction k generalizing i p with
  | zero => rfl
  | succ k ih =>
    simp only [CmNormalize.scaleLoopInt32, CmNormalize.scaleLoop, incInt_of_lt i (by omega),
      Option.some_bind]
    congr 1
    funext x
    congr 1
    funext q
    exact ih (i + 1) q (by omega)

/-- For `n ≤ INT_MAX` the `int` counters never overflow and `CmNormalize` with
them is `CmNormalize` with natural-number counters. -/
theorem CmNormalizeInt32_eq (s : Scalar) (sqrt : T → T) (p : List T) (n : Nat)
    (hn : n ≤ INT_MAX) :
    CmNormalizeInt32 s sqrt p n = CmNormalize s sqrt p n := by
  have h1 : CmLengthInt32 sqrt p n = CmLength sqrt p n := by
    rw [CmLengthInt32, CmLengthSqInt32, CmLengthSq.loopInt32_eq p n 0 0 (by omega)]
    rfl
  have h2 : ∀ q : List T, CmNormalize.zeroLoopInt32 (n - 1) 1 q
      = CmNormalize.zeroLoop (n - 1) 1 q := fun q =>
    CmNormalize.zeroLoopInt32_eq (n - 1) 1 q (by unfold INT_MAX at *; omega)
  have h3 : ∀ c : T, CmNormalize.scaleLoopInt32 c n 0 p = CmNormalize.scaleLoop c n 0 p :=
    fun c => CmNormalize.scaleLoopInt32_eq c n 0 p (by omega)
  simp only [CmNormalizeInt32, CmNormalize, h1, h2, h3]

/-- For `n > INT_MAX` the first loop already has to count past `INT_MAX`. -/
theorem CmNormalizeInt32_none (s : Scalar) (sqrt : T → T) (p : List T) (n : Nat)
    (hn : INT_MAX < n) :
    CmNormalizeInt32 s sqrt p n = none := by
  have h1 : CmLengthSqInt32 p n = none :=
    CmLengthSq.loopInt32_none p n 0 0 (Nat.zero_le _) (by omega)
  simp [CmNormalizeInt32, CmLengthInt32, h1]

end Lemmas

section Claims

variable {T : Type} [LinearOrderedField T]

/-- C1, evaluated on the code: the clamp of `CmNormalize` never fires.  For
`float` and for `double` the tolerance stays `10 / max`, strictly below the
default tolerance and hence different from the larger of the two; on the
`double` buffer `[0, 2^-40]`, whose length `2^-40` lies between `0` and the
default tolerance `1e-10`, `CmNormalize` scales and leaves `[0, 1]`, not
`[1, 0]`. -/
theorem CmNormalize_tol_never_clamped :
    (CmNormalize.tol Scalar.float : ℚ) = 10 / numericLimitsMax Scalar.float
      ∧ (CmNormalize.tol Scalar.double : ℚ) = 10 / numericLimitsMax Scalar.double
      ∧ (CmNormalize.tol Scalar.float : ℚ)
          ≠ max (10 / numericLimitsMax Scalar.float) (CmDefaultTolerance Scalar.float)
      ∧ (CmNormalize.tol Scalar.double : ℚ)
          ≠ max (10 / numericLimitsMax Scalar.double) (CmDefaultTolerance Scalar.double)
      ∧ CmLength Rat.sqrt [(0 : ℚ), 1 / 2 ^ 40] 2 = some (1 / 2 ^ 40)
      ∧ (0 : ℚ) ≤ 1 / 2 ^ 40
      ∧ (1 / 2 ^ 40 : ℚ) ≤ CmDefaultTolerance Scalar.double
      ∧ CmNormalize Scalar.double Rat.sqrt [(0 : ℚ), 1 / 2 ^ 40] 2
          = some (1 / 2 ^ 40, [0, 1]) := by
  have hlen : CmLength Rat.sqrt [(0 : ℚ), 1 / 2 ^ 40] 2 = some (1 / 2 ^ 40) := by
    rw [CmLength_eq Rat.sqrt _ 2 (by decide)]
    have h := Rat_sqrt_sq (1 / 2 ^ 40) (by norm_num)
    norm_num at h ⊢
    exact h
  refine ⟨CmNormalize.tol_eq _, CmNormalize.tol_eq _, ?_, ?_, hlen, by norm_num, ?_, ?_⟩
  · rw [CmNormalize.tol_eq]
    norm_num [numericLimitsMax, CmDefaultTolerance, kCmDefaultToleranceF]
  · rw [CmNormalize.tol_eq]
    norm_num [numericLimitsMax, CmDefaultTolerance, kCmDefaultToleranceD]
  · norm_num [CmDefaultTolerance, kCmDefaultToleranceD]
  · rw [CmNormalize, hlen, Option.some_bind]
    have hz : CmIsZero (1 / 2 ^ 40 : ℚ) (CmNormalize.tol Scalar.double) = false := by
      rw [CmNormalize.tol_eq]
      norm_num [CmIsZero, numericLimitsMax]
    simp only [hz]
    norm_num [CmNormalize.scaleLoop, store]

/-- C2: when the length `l` of the first `n ≥ 1` components passes
`isZero(l, tol)` for the tolerance of `normalize`, the call returns `l` and
leaves component `0` equal to `1` and the components `1 .. n-1` equal to `0`,
whatever they were; components from `n` on are untouched. -/
theorem CmNormalize_degenerate (s : Scalar) (sqrt : T → T) (p : List T) (n : Nat) (l : T)
    (hn : 1 ≤ n) (hlen : n ≤ p.length) (hl : CmLength sqrt p n = some l)
    (hz : CmIsZero l (CmNormalize.tol s) = true) :
    CmNormalize s sqrt p n = some (l, 1 :: (List.replicate (n - 1) 0 ++ p.drop n)) := by
  have hd := CmNormalize.degenerate_eq p n hn hlen
  cases hst : store p 0 1 with
  | none => simp [hst] at hd
  | some p1 =>
    simp only [hst, Option.some_bind] at hd
    simp [CmNormalize, hl, hz, hst, hd]

theorem CmNormalize_degenerate_witness :
    CmNormalize Scalar.double Rat.sqrt [(0 : ℚ), 0] 2 = some (0, [1, 0]) := by
  have hl : CmLength Rat.sqrt [(0 : ℚ), 0] 2 = some 0 := by
    rw [CmLength_eq Rat.sqrt _ 2 (by decide)]
    have h := Rat_sqrt_sq 0 le_rfl
    norm_num at h ⊢
  have hz : CmIsZero (0 : ℚ) (CmNormalize.tol Scalar.double) = true := by
    rw [CmNormalize.tol_eq]
    norm_num [CmIsZero, numericLimitsMax]
  have h := CmNormalize_degenerate Scalar.double Rat.sqrt [(0 : ℚ), 0] 2 0
    (by decide) (by decide) hl hz
  simpa using h

/-- C3: when the length `l` of the first `n` components fails
`isZero(l, tol)` for the tolerance of `normalize`, the call returns `l` and
replaces each of the first `n` components `p[i]` by `p[i] * (1 / l)`, with `l`
the length of the buffer as it was before the call; components from `n` on are
untouched. -/
theorem CmNormalize_scales (s : Scalar) (sqrt : T → T) (p : List T) (n : Nat) (l : T)
    (hlen : n ≤ p.length) (hl : CmLength sqrt p n = some l)
    (hz : CmIsZero l (CmNormalize.tol s) = false) :
    CmNormalize s sqrt p n
      = some (l, (p.take n).map (fun x => x * (1 / l)) ++ p.drop n) :=
  CmNormalize_scales_aux s sqrt p n l hlen hl hz

theorem CmNormalize_scales_witness :
    CmNormalize Scalar.double Rat.sqrt [(3 : ℚ), 4] 2 = some (5, [3 / 5, 4 / 5]) := by
  have hl : CmLength Rat.sqrt [(3 : ℚ), 4] 2 = some 5 := by
    rw [CmLength_eq Rat.sqrt _ 2 (by decide)]
    have h := Rat_sqrt_sq 5 (by norm_num)
    norm_num at h ⊢
  have hz : CmIsZero (5 : ℚ) (CmNormalize.tol Scalar.double) = false := by
    rw [CmNormalize.tol_eq]
    norm_num [CmIsZero, numericLimitsMax]
  have h := CmNormalize_scales Scalar.double Rat.sqrt [(3 : ℚ), 4] 2 5 (by decide) hl hz
  rw [h]
  norm_num

/-- C4: in exact real arithmetic, with the real square root, `normalize` on a
buffer of `n ≥ 1` components returns and leaves a buffer whose
`lengthSquared` over `n` components is `1`, in the degenerate branch and in
the scaling branch alike. -/
theorem CmNormalize_unit_length (s : Scalar) (p : List ℝ) (n : Nat)
    (hn : 1 ≤ n) (hlen : n ≤ p.length) :
    ∃ l q, CmNormalize s Real.sqrt p n = some (l, q) ∧ CmLengthSq q n = some 1 := by
  refine CmNormalize.unit_of_exact_sqrt s Real.sqrt p n hn hlen ?_
  refine Real.mul_self_sqrt (List.sum_nonneg ?_)
  intro y hy
  obtain ⟨x, -, rfl⟩ := List.mem_map.mp hy
  exact mul_self_nonneg x

theorem CmNormalize_unit_length_witness :
    1 ≤ 2 ∧ 2 ≤ [(3 : ℝ), 4].length
      ∧ ∃ l q, CmNormalize Scalar.double Real.sqrt [(3 : ℝ), 4] 2 = some (l, q)
          ∧ CmLengthSq q 2 = some 1 :=
  ⟨by decide, by simp,
    CmNormalize_unit_length Scalar.double [(3 : ℝ), 4] 2 (by decide) (by simp)⟩

/-- C5: whenever `normalize` returns, the value returned is `length(buffer, n)`
of the buffer as it was before the call, in either branch; and it does return
on every non-empty buffer with at least `n` components. -/
theorem CmNormalize_returns_length (s : Scalar) (sqrt : T → T) (p : List T) (n : Nat) :
    (∀ r q, CmNormalize s sqrt p n = some (r, q) → CmLength sqrt p n = some r)
      ∧ (n ≤ p.length → p ≠ [] →
          ∃ l q, CmLength sqrt p n = some l ∧ CmNormalize s sqrt p n = some (l, q)) := by
  constructor
  · intro r q h
    cases hl : CmLength sqrt p n with
    | none => simp [CmNormalize, hl] at h
    | some l =>
      simp only [CmNormalize, hl, Option.some_bind] at h
      split at h
      · cases hst : store p 0 1 with
        | none => simp [hst] at h
        | some p1 =>
          simp only [hst, Option.some_bind, Option.map_eq_some'] at h
          obtain ⟨p2, -, h2⟩ := h
          rw [(Prod.mk.inj h2).1]
      · simp only [Option.map_eq_some'] at h
        obtain ⟨p2, -, h2⟩ := h
        rw [(Prod.mk.inj h2).1]
  · intro hlen hp
    obtain ⟨l, hl⟩ : ∃ l, CmLength sqrt p n = some l := ⟨_, CmLength_eq sqrt p n hlen⟩
    refine ⟨l, ?_⟩
    cases hz : CmIsZero l (CmNormalize.tol s) with
    | true =>
      cases p with
      | nil => exact absurd rfl hp
      | cons x p =>
        have hm : n - 1 ≤ p.length := by
          simp only [List.length_cons] at hlen
          omega
        refine ⟨1 :: (List.replicate (n - 1) 0 ++ p.drop (n - 1)), hl, ?_⟩
        rw [CmNormalize, hl, Option.some_bind]
        simp [hz, store, CmNormalize.zeroLoop_cons, CmNormalize.zeroLoop_eq p (n - 1) hm]
    | false =>
      exact ⟨_, hl, CmNormalize_scales_aux s sqrt p n l hlen hl hz⟩

theorem CmNormalize_returns_length_witness :
    CmLength Rat.sqrt [(3 : ℚ), 4] 2 = some 5
      ∧ (2 ≤ [(3 : ℚ), 4].length ∧ [(3 : ℚ), 4] ≠ []
          ∧ ∃ l q, CmLength Rat.sqrt [(3 : ℚ), 4] 2 = some l
              ∧ CmNormalize Scalar.float Rat.sqrt [(3 : ℚ), 4] 2 = some (l, q)) := by
  have hl : CmLength Rat.sqrt [(3 : ℚ), 4] 2 = some 5 := by
    rw [CmLength_eq Rat.sqrt _ 2 (by decide)]
    have h := Rat_sqrt_sq 5 (by norm_num)
    norm_num at h ⊢
  have hz : CmIsZero (5 : ℚ) (CmNormalize.tol Scalar.float) = false := by
    rw [CmNormalize.tol_eq]
    norm_num [CmIsZero, numericLimitsMax]
  have hrun : CmNormalize Scalar.float Rat.sqrt [(3 : ℚ), 4] 2
      = some (5, [3 * (1 / 5), 4 * (1 / 5)]) := by
    simp [CmNormalize, hl, hz, CmNormalize.scaleLoop, store]
  have h := CmNormalize_returns_length Scalar.float Rat.sqrt [(3 : ℚ), 4] 2
  exact ⟨h.1 5 _ hrun, by decide, by simp, h.2 (by decide) (by simp)⟩

/-- C6: `equals(x1, x2, tol) = equals(x2, x1, tol)` for all `x1`, `x2` and every
tolerance, in particular every `tol ≥ 0`. -/
theorem CmEquals_symm (s : Scalar) (x1 x2 tol : T) :
    CmEquals s x1 x2 tol = CmEquals s x2 x1 tol := by
  simp only [CmEquals, CmAbsAt_eq_abs, abs_sub_comm x1 x2]

/-- C7: `equals(x, x, tol)` is true for every `x` and every `tol ≥ 0`. -/
theorem CmEquals_refl (s : Scalar) (x tol : T) (htol : 0 ≤ tol) :
    CmEquals s x x tol = true := by
  simp [CmEquals, CmAbsAt_eq_abs, htol]

theorem CmEquals_refl_witness :
    (0 : ℚ) ≤ 1 / 10 ^ 10 ∧ CmEquals Scalar.double (3 : ℚ) 3 (1 / 10 ^ 10) = true :=
  ⟨by norm_num, CmEquals_refl Scalar.double 3 (1 / 10 ^ 10) (by norm_num)⟩

/-- C8: `less(x1, x2, tol)` and `greaterOrEqual(x1, x2, tol)` are never both true,
for all `x1`, `x2` and every tolerance, in particular every `tol ≥ 0`. -/
theorem CmLess_CmGreaterOrEqual_not_both (x1 x2 tol : T) :
    (CmLess x1 x2 tol && CmGreaterOrEqual x1 x2 tol) = false := by
  by_cases h : x1 < x2 - tol
  · rw [show CmLess x1 x2 tol = true from decide_eq_true h,
      show CmGreaterOrEqual x1 x2 tol = false from decide_eq_false (not_le.mpr h)]
    rfl
  · rw [show CmLess x1 x2 tol = false from decide_eq_false h]
    rfl

/-- C9: `isZero(x, tol)` is true if and only if `-tol ≤ x` and `x ≤ tol`, for
every `x` and every tolerance, in particular every `tol ≥ 0`. -/
theorem CmIsZero_iff (x tol : T) :
    CmIsZero x tol = true ↔ -tol ≤ x ∧ x ≤ tol := by
  simp [CmIsZero]

/-- C10: for `n` not exceeding the size of the buffer, `lengthSquared(p, n)` is
the sum over `i` in `[0, n)` of `p[i] * p[i]`, and it reads the first `n`
components only: a buffer with the same first `n` components gives the same
value. -/
theorem CmLengthSq_eq_sum (p : List T) (n : Nat) (hn : n ≤ p.length) :
    CmLengthSq p n = some (∑ i in Finset.range n, p.getD i 0 * p.getD i 0)
      ∧ ∀ q : List T, q.take n = p.take n → CmLengthSq q n = CmLengthSq p n := by
  refine ⟨?_, ?_⟩
  · have h := CmLengthSq.loop_eq_sum_range p n 0 0 (by omega)
    simpa [CmLengthSq] using h
  · intro q hq
    have hqn : n ≤ q.length := by
      have h1 : (q.take n).length = (p.take n).length := by rw [hq]
      simp only [List.length_take] at h1
      omega
    rw [CmLengthSq_eq q n hqn, CmLengthSq_eq p n hn, hq]

theorem CmLengthSq_eq_sum_witness :
    2 ≤ [(3 : ℚ), 4].length ∧ CmLengthSq [(3 : ℚ), 4] 2 = some 25 :=
  ⟨by decide, by
    rw [(CmLengthSq_eq_sum [(3 : ℚ), 4] 2 (by decide)).1]
    norm_num [Finset.sum_range_succ]⟩

/-- C11: in exact real arithmetic, `length(p, n)` is the real square root of
`lengthSquared(p, n)`: it is non-negative and its square is
`lengthSquared(p, n)`. -/
theorem CmLength_sq (p : List ℝ) (n : Nat) (hn : n ≤ p.length) :
    ∃ lSq l, CmLengthSq p n = some lSq ∧ CmLength Real.sqrt p n = some l
      ∧ l = Real.sqrt lSq ∧ 0 ≤ l ∧ l * l = lSq := by
  refine ⟨_, _, CmLengthSq_eq p n hn, CmLength_eq Real.sqrt p n hn, rfl,
    Real.sqrt_nonneg _, Real.mul_self_sqrt (sum_sq_nonneg _)⟩

theorem CmLength_sq_witness :
    2 ≤ [(3 : ℝ), 4].length ∧ CmLength Real.sqrt [(3 : ℝ), 4] 2 = some 5 := by
  refine ⟨by simp, ?_⟩
  obtain ⟨lSq, l, h1, h2, -, h4, h5⟩ := CmLength_sq [(3 : ℝ), 4] 2 (by simp)
  have h25 : lSq = 25 := by
    have h := CmLengthSq_eq [(3 : ℝ), 4] 2 (by simp)
    rw [h1] at h
    have h' := Option.some.inj h
    rw [h']
    norm_num
  have hl : l = 5 := by
    rw [h25] at h5
    nlinarith
  rw [h2, hl]

/-- C12: `equalsPerByte(x1, x2, tol)` is true if and only if the `sizeof(T)`
bytes of the two object representations agree pairwise, and the answer is the
same for every value of `tol`. -/
theorem CmEqualsPerByte_iff {α : Type} (bytes : α → Nat → Nat) (sizeofT : Nat)
    (x1 x2 tol tol' : α) :
    (CmEqualsPerByte bytes sizeofT x1 x2 tol = true
        ↔ ∀ i, i < sizeofT → bytes x1 i = bytes x2 i)
      ∧ CmEqualsPerByte bytes sizeofT x1 x2 tol
          = CmEqualsPerByte bytes sizeofT x1 x2 tol' := by
  refine ⟨?_, rfl⟩
  have h := CmEqualsPerByte.loop_iff (bytes x1) (bytes x2) sizeofT 0
  simpa [CmEqualsPerByte] using h

/-- The `double` instance of C12: `0x3FF0000000000000` is the binary64 object
`1.0`, `0x3FF000001AD7F29B` is the binary64 object within half a unit in the
last place of `1.0000001`; `equalsPerByte(1.0, 1.0)` is true and
`equalsPerByte(1.0, 1.0000001)` is false. -/
theorem CmEqualsPerByte_iff_witness :
    binary64Value 0x3FF0000000000000 = some 1
      ∧ (∃ v, binary64Value 0x3FF000001AD7F29B = some v
          ∧ |v - 10000001 / 10000000| ≤ 1 / 2 ^ 53)
      ∧ CmEqualsPerByte binary64Bytes 8 0x3FF0000000000000 0x3FF0000000000000
          0x3DDB7CDFD9D7BDBB = true
      ∧ CmEqualsPerByte binary64Bytes 8 0x3FF0000000000000 0x3FF000001AD7F29B
          0x3DDB7CDFD9D7BDBB = false := by
  refine ⟨?_, ?_, ?_, ?_⟩
  · norm_num [binary64Value]
  · refine ⟨(2 ^ 52 + 450359963) * 2 ^ 1023 / 2 ^ 1075, ?_, ?_⟩
    · norm_num [binary64Value]
    · rw [abs_le]
      constructor <;> norm_num
  · exact (CmEqualsPerByte_iff binary64Bytes 8 0x3FF0000000000000 0x3FF0000000000000
      0x3DDB7CDFD9D7BDBB 0x3DDB7CDFD9D7BDBB).1.mpr (fun _ _ => rfl)
  · rw [Bool.eq_false_iff]
    intro h
    have h0 := (CmEqualsPerByte_iff binary64Bytes 8 0x3FF0000000000000 0x3FF000001AD7F29B
      0x3DDB7CDFD9D7BDBB 0x3DDB7CDFD9D7BDBB).1.mp h 0 (by decide)
    norm_num [binary64Bytes] at h0

/-- C13: `abs(x)` is the absolute value of `x`: it is `x` for `x ≥ 0` and `-x`
for `x < 0`, it is non-negative and even, and the generic sign branch, the
`float` specialisation and the `double` specialisation agree on every `x`. -/
theorem CmAbs_spec (s : Scalar) (x : T) :
    (0 ≤ x → CmAbs x = x) ∧ (x < 0 → CmAbs x = -x)
      ∧ 0 ≤ CmAbs x ∧ CmAbs (-x) = CmAbs x
      ∧ CmAbs_float x = CmAbs x ∧ CmAbs_double x = CmAbs x
      ∧ CmAbsAt s x = CmAbs x ∧ CmAbs x = |x| := by
  refine ⟨?_, ?_, ?_, ?_, ?_, ?_, ?_, CmAbs_eq_abs x⟩
  · intro h
    rw [CmAbs_eq_abs, abs_of_nonneg h]
  · intro h
    rw [CmAbs_eq_abs, abs_of_neg h]
  · rw [CmAbs_eq_abs]
    exact abs_nonneg x
  · rw [CmAbs_eq_abs, CmAbs_eq_abs, abs_neg]
  · rw [CmAbs_eq_abs]
    rfl
  · rw [CmAbs_eq_abs]
    rfl
  · rw [CmAbs_eq_abs, CmAbsAt_eq_abs]

theorem CmAbs_spec_witness :
    ((0 : ℚ) ≤ 3 ∧ CmAbs (3 : ℚ) = 3) ∧ ((-3 : ℚ) < 0 ∧ CmAbs (-3 : ℚ) = - (-3))
      ∧ CmAbs_double (-3 : ℚ) = CmAbs (-3 : ℚ) :=
  ⟨⟨by norm_num, (CmAbs_spec Scalar.float (3 : ℚ)).1 (by norm_num)⟩,
    ⟨by norm_num, (CmAbs_spec Scalar.float (-3 : ℚ)).2.1 (by norm_num)⟩,
    (CmAbs_spec Scalar.double (-3 : ℚ)).2.2.2.2.2.1⟩

/-- C14 as amended: `defaultTolerance<float>()` is the binary32 number nearest
to `1e-6`, which is `8796093 / 2^43`, and `defaultTolerance<double>()` is the
binary64 number nearest to `1e-10`, which is `7737125245533627 / 2^86`; this
is the tolerance `equals` uses when its `tol` argument is omitted. -/
theorem CmDefaultTolerance_rounded (s : Scalar) (x1 x2 : ℚ) :
    (CmDefaultTolerance Scalar.float : ℚ) = binary32Round (1 / 10 ^ 6)
      ∧ (CmDefaultTolerance Scalar.float : ℚ) = 8796093 / 2 ^ 43
      ∧ (CmDefaultTolerance Scalar.double : ℚ) = binary64Round (1 / 10 ^ 10)
      ∧ (CmDefaultTolerance Scalar.double : ℚ) = 7737125245533627 / 2 ^ 86
      ∧ CmEquals.defaultTol s x1 x2 = CmEquals s x1 x2 (CmDefaultTolerance s) := by
  refine ⟨?_, rfl, ?_, rfl, rfl⟩
  · have h := roundMagnitude_eq 24 (-126) (1 / 10 ^ 6) (-20) 8796093
      (by norm_num) (by norm_num) (Or.inr (by norm_num)) (by norm_num)
      (by rw [abs_lt]; constructor <;> norm_num)
    norm_num [binary32Round, roundBinary, CmDefaultTolerance, kCmDefaultToleranceF] at h ⊢
    rw [h]
  · have h := roundMagnitude_eq 53 (-1022) (1 / 10 ^ 10) (-34) 7737125245533627
      (by norm_num) (by norm_num) (Or.inr (by norm_num)) (by norm_num)
      (by rw [abs_lt]; constructor <;> norm_num)
    norm_num [binary64Round, roundBinary, CmDefaultTolerance, kCmDefaultToleranceD] at h ⊢
    rw [h]

/-- C14 as stated fails: neither `defaultTolerance<float>()` nor
`defaultTolerance<double>()` is exactly the decimal `1e-6`, `1e-10`. -/
theorem CmDefaultTolerance_not_decimal :
    (CmDefaultTolerance Scalar.float : ℚ) ≠ 1 / 10 ^ 6
      ∧ (CmDefaultTolerance Scalar.double : ℚ) ≠ 1 / 10 ^ 10 := by
  constructor <;>
    norm_num [CmDefaultTolerance, kCmDefaultToleranceF, kCmDefaultToleranceD]

/-- C15 as amended: in exact arithmetic the trichotomy holds as stated; in the
code, where `x1 - x2`, `x2 - tol` and `x2 + tol` are each rounded (by any
monotone rounding `fl`), for `tol ≥ 0` exactly one of `less`, `lessOrEqual`
together with `greaterOrEqual`, `greater` is true, `lessOrEqual` is the
negation of `greater` and `greaterOrEqual` the negation of `less`. -/
theorem Cm_trichotomy (fl : T → T) (hfl : Monotone fl) (s : Scalar) (x1 x2 tol : T)
    (htol : 0 ≤ tol) :
    (((CmLess.rounded fl x1 x2 tol = true
          ∧ (CmLessOrEqual.rounded fl x1 x2 tol
              && CmGreaterOrEqual.rounded fl x1 x2 tol) = false
          ∧ CmGreater.rounded fl x1 x2 tol = false)
        ∨ (CmLess.rounded fl x1 x2 tol = false
          ∧ (CmLessOrEqual.rounded fl x1 x2 tol
              && CmGreaterOrEqual.rounded fl x1 x2 tol) = true
          ∧ CmGreater.rounded fl x1 x2 tol = false)
        ∨ (CmLess.rounded fl x1 x2 tol = false
          ∧ (CmLessOrEqual.rounded fl x1 x2 tol
              && CmGreaterOrEqual.rounded fl x1 x2 tol) = false
          ∧ CmGreater.rounded fl x1 x2 tol = true))
      ∧ CmLessOrEqual.rounded fl x1 x2 tol = !CmGreater.rounded fl x1 x2 tol
      ∧ CmGreaterOrEqual.rounded fl x1 x2 tol = !CmLess.rounded fl x1 x2 tol)
    ∧ (((CmLess x1 x2 tol = true ∧ CmEquals s x1 x2 tol = false
          ∧ CmGreater x1 x2 tol = false)
        ∨ (CmLess x1 x2 tol = false ∧ CmEquals s x1 x2 tol = true
          ∧ CmGreater x1 x2 tol = false)
        ∨ (CmLess x1 x2 tol = false ∧ CmEquals s x1 x2 tol = false
          ∧ CmGreater x1 x2 tol = true))
      ∧ CmLessOrEqual x1 x2 tol = (CmLess x1 x2 tol || CmEquals s x1 x2 tol)
      ∧ CmGreaterOrEqual x1 x2 tol = (CmGreater x1 x2 tol || CmEquals s x1 x2 tol)) :=
  ⟨Cm_trichotomy_of_monotone fl hfl x1 x2 tol htol, Cm_trichotomy_exact s x1 x2 tol htol⟩

theorem Cm_trichotomy_witness :
    Monotone binary64Round ∧ (0 : ℚ) ≤ 1
      ∧ CmLessOrEqual.rounded binary64Round (3602879701896397 / 2 ^ 55)
          (4953959590107546 / 2 ^ 52) 1
        = !CmGreater.rounded binary64Round (3602879701896397 / 2 ^ 55)
          (4953959590107546 / 2 ^ 52) 1
      ∧ CmLessOrEqual (3602879701896397 / 2 ^ 55 : ℚ) (4953959590107546 / 2 ^ 52) 1
        = (CmLess (3602879701896397 / 2 ^ 55 : ℚ) (4953959590107546 / 2 ^ 52) 1
            || CmEquals Scalar.double (3602879701896397 / 2 ^ 55 : ℚ)
              (4953959590107546 / 2 ^ 52) 1) :=
  have h := Cm_trichotomy binary64Round binary64Round_mono Scalar.double
    (3602879701896397 / 2 ^ 55) (4953959590107546 / 2 ^ 52) 1 (by norm_num)
  ⟨binary64Round_mono, by norm_num, h.1.2.1, h.2.2.1⟩

/-- C15 as stated fails in binary64: on the doubles `x1 = 0.1`, `x2 = 1.1` with
`tol = 1`, `less(x1, x2, tol)` and `equals(x1, x2, tol)` are both true. -/
theorem Cm_trichotomy_fails_binary64 :
    binary64Round (1 / 10) = 3602879701896397 / 2 ^ 55
      ∧ binary64Round (11 / 10) = 4953959590107546 / 2 ^ 52
      ∧ (0 : ℚ) ≤ 1
      ∧ CmLess.rounded binary64Round (3602879701896397 / 2 ^ 55)
          (4953959590107546 / 2 ^ 52) 1 = true
      ∧ CmEquals.rounded binary64Round Scalar.double (3602879701896397 / 2 ^ 55)
          (4953959590107546 / 2 ^ 52) 1 = true := by
  refine ⟨binary64Round_tenth.1, binary64Round_tenth.2, by norm_num, ?_, ?_⟩
  · rw [CmLess.rounded, binary64Round_sub_examples.1, decide_eq_true_iff]
    norm_num
  · rw [CmEquals.rounded, binary64Round_sub_examples.2, decide_eq_true_iff, CmAbsAt_eq_abs]
    norm_num

/-- C16, evaluated on the code with its `int` loop counters: `normalize` stays
within a buffer of exactly `n` components for `1 ≤ n ≤ INT_MAX`; for `n = 0`
the computed length is `0`, the degenerate branch is taken and index `0` is
written (outside the empty buffer, over component `0` of a longer one); but
for every `n > INT_MAX = 2^31 - 1`, on any buffer, the counter `int i` of the
first loop is incremented past `INT_MAX` and the call has no defined result. -/
theorem CmNormalizeInt32_within_buffer (s : Scalar) (sqrt : T → T) :
    (∀ (p : List T) (n : Nat), 1 ≤ n → n ≤ INT_MAX → p.length = n →
        ∃ l q, CmNormalizeInt32 s sqrt p n = some (l, q) ∧ q.length = n)
      ∧ (sqrt 0 = 0 →
          CmLengthInt32 sqrt ([] : List T) 0 = some 0
            ∧ CmIsZero (0 : T) (CmNormalize.tol s) = true
            ∧ store ([] : List T) 0 1 = none
            ∧ CmNormalizeInt32 s sqrt ([] : List T) 0 = none
            ∧ ∀ (x : T) (p : List T), CmNormalizeInt32 s sqrt (x :: p) 0 = some (0, 1 :: p))
      ∧ (∀ (p : List T) (n : Nat), INT_MAX < n → CmNormalizeInt32 s sqrt p n = none) := by
  refine ⟨?_, ?_, ?_⟩
  · intro p n hn hmax hlen
    rw [CmNormalizeInt32_eq s sqrt p n hmax]
    obtain ⟨l, q, h1, h2⟩ := CmNormalize.returns_of_pos s sqrt p n hn hlen.ge
    exact ⟨l, q, h1, h2.trans hlen⟩
  · intro hsqrt
    have hz : CmIsZero (0 : T) (CmNormalize.tol s) = true := by
      have hpos := CmNormalize.tol_pos (T := T) s
      simp [CmIsZero, hpos.le]
    have hl : ∀ p : List T, CmLengthInt32 sqrt p 0 = some 0 := by
      intro p
      simp [CmLengthInt32, CmLengthSqInt32, CmLengthSq.loopInt32, hsqrt]
    refine ⟨hl [], hz, rfl, ?_, ?_⟩
    · simp [CmNormalizeInt32, hl, hz, store]
    · intro x p
      simp [CmNormalizeInt32, hl, hz, store, CmNormalize.zeroLoopInt32]
  · intro p n hn
    exact CmNormalizeInt32_none s sqrt p n hn

/-- The failing input of C16: a buffer of `2^31` components, all `1`, with
`n = 2^31`.  With natural-number counters every access is inside the buffer
and the call returns; with the `int` counter of the source it does not. -/
theorem CmNormalizeInt32_within_buffer_witness :
    (1 ≤ 2 ∧ 2 ≤ INT_MAX ∧ [(3 : ℚ), 4].length = 2
        ∧ ∃ l q, CmNormalizeInt32 Scalar.double Rat.sqrt [(3 : ℚ), 4] 2 = some (l, q)
            ∧ q.length = 2)
      ∧ (Rat.sqrt 0 = 0 ∧ CmNormalizeInt32 Scalar.double Rat.sqrt ([] : List ℚ) 0 = none
          ∧ CmNormalizeInt32 Scalar.double Rat.sqrt [(7 : ℚ)] 0 = some (0, [1]))
      ∧ (INT_MAX < 2 ^ 31 ∧ (List.replicate (2 ^ 31) (1 : ℚ)).length = 2 ^ 31
          ∧ (∃ l q, CmNormalize Scalar.double Rat.sqrt (List.replicate (2 ^ 31) (1 : ℚ))
              (2 ^ 31) = some (l, q))
          ∧ CmNormalizeInt32 Scalar.double Rat.sqrt (List.replicate (2 ^ 31) (1 : ℚ))
              (2 ^ 31) = none) := by
  have h := CmNormalizeInt32_within_buffer (T := ℚ) Scalar.double Rat.sqrt
  have h0 : Rat.sqrt 0 = 0 := by
    have h := Rat_sqrt_sq 0 le_rfl
    rwa [mul_zero] at h
  have hmax : INT_MAX < 2 ^ 31 := by
    unfold INT_MAX
    norm_num
  have hlen : (List.replicate (2 ^ 31) (1 : ℚ)).length = 2 ^ 31 := List.length_replicate _ _
  refine ⟨⟨by decide, by unfold INT_MAX; norm_num, rfl,
      h.1 [3, 4] 2 (by decide) (by unfold INT_MAX; norm_num) rfl⟩,
    ⟨h0, (h.2.1 h0).2.2.2.1, (h.2.1 h0).2.2.2.2 7 []⟩,
    hmax, hlen, ?_, h.2.2 _ _ hmax⟩
  obtain ⟨l, q, hq, -⟩ := CmNormalize.returns_of_pos Scalar.double Rat.sqrt
    (List.replicate (2 ^ 31) (1 : ℚ)) (2 ^ 31) (by norm_num) hlen.ge
  exact ⟨l, q, hq⟩

/-- C17: `isZero(x, tol) = equals(x, 0, tol)` for every `x` and every `tol`. -/
theorem CmIsZero_eq_CmEquals_zero (s : Scalar) (x tol : T) :
    CmIsZero x tol = CmEquals s x 0 tol := by
  rw [Bool.eq_iff_iff, CmEquals_iff]
  simp only [CmIsZero, Bool.and_eq_true, decide_eq_true_iff, ge_iff_le, zero_sub, zero_add]

/-- C18: in exact real arithmetic `normalize` is idempotent on the buffer: on
a buffer with `n ≥ 1` components the first call returns and leaves `q`, and a
second call on `q` leaves `q` and returns `1`. -/
theorem CmNormalize_idempotent (s : Scalar) (p : List ℝ) (n : Nat)
    (hn : 1 ≤ n) (hlen : n ≤ p.length) :
    ∃ l q, CmNormalize s Real.sqrt p n = some (l, q)
      ∧ CmNormalize s Real.sqrt q n = some (1, q) := by
  obtain ⟨l, q, h1, h2⟩ := CmNormalize.unit_of_exact_sqrt s Real.sqrt p n hn hlen
    (Real.mul_self_sqrt (sum_sq_nonneg _))
  exact ⟨l, q, h1, CmNormalize.of_unit s Real.sqrt Real.sqrt_one q n h2⟩

theorem CmNormalize_idempotent_witness :
    1 ≤ 2 ∧ 2 ≤ [(3 : ℝ), 4].length
      ∧ ∃ l q, CmNormalize Scalar.float Real.sqrt [(3 : ℝ), 4] 2 = some (l, q)
          ∧ CmNormalize Scalar.float Real.sqrt q 2 = some (1, q) :=
  ⟨by decide, by simp,
    CmNormalize_idempotent Scalar.float [(3 : ℝ), 4] 2 (by decide) (by simp)⟩

/-- C19 as amended: for `n` within the buffer, under any monotone rounding `fl`
with `fl 0 = 0`, `lengthSquared(p, n)` is non-negative, it is the argument
`length` passes to `sqrt`, and it is `0` when each of the first `n` components
is `0`; in exact arithmetic it is `0` only then. -/
theorem CmLengthSq_nonneg (fl : T → T) (hfl : Monotone fl) (h0 : fl 0 = 0)
    (sqrt : T → T) (p : List T) (n : Nat) (hn : n ≤ p.length) :
    (∃ lSq, CmLengthSq.rounded fl p n = some lSq
        ∧ CmLength.rounded fl sqrt p n = some (sqrt lSq)
        ∧ 0 ≤ lSq ∧ ((∀ i, i < n → p.getD i 0 = 0) → lSq = 0))
      ∧ (∃ lSq, CmLengthSq.rounded id p n = some lSq ∧ CmLengthSq p n = some lSq
          ∧ 0 ≤ lSq ∧ (lSq = 0 ↔ ∀ i, i < n → p.getD i 0 = 0)) := by
  constructor
  · obtain ⟨r, hr, hnn, hz⟩ := CmLengthSq.roundedLoop_spec fl hfl h0 p n 0 0 (by omega)
    refine ⟨r, hr, ?_, hnn le_rfl, ?_⟩
    · rw [CmLength.rounded, show CmLengthSq.rounded fl p n = some r from hr]
      rfl
    · intro hall
      exact hz rfl (fun j hj => by simpa using hall j hj)
  · have h := CmLengthSq.loop_eq_sum_range p n 0 0 (by omega)
    simp only [zero_add] at h
    refine ⟨_, ?_, h, ?_, ?_⟩
    · rw [CmLengthSq.rounded, CmLengthSq.roundedLoop_id]
      exact h
    · exact Finset.sum_nonneg fun i _ => mul_self_nonneg _
    · rw [Finset.sum_eq_zero_iff_of_nonneg fun i _ => mul_self_nonneg _]
      simp only [Finset.mem_range, mul_self_eq_zero]

theorem CmLengthSq_nonneg_witness :
    Monotone binary64Round ∧ binary64Round 0 = 0 ∧ 2 ≤ [(0 : ℚ), 0, 5].length
      ∧ (∃ lSq, CmLengthSq.rounded binary64Round [(0 : ℚ), 0, 5] 2 = some lSq
          ∧ CmLength.rounded binary64Round Rat.sqrt [(0 : ℚ), 0, 5] 2 = some (Rat.sqrt lSq)
          ∧ 0 ≤ lSq ∧ ((∀ i, i < 2 → [(0 : ℚ), 0, 5].getD i 0 = 0) → lSq = 0)) :=
  ⟨binary64Round_mono, binary64Round_zero, by decide,
    (CmLengthSq_nonneg binary64Round binary64Round_mono binary64Round_zero Rat.sqrt
      [(0 : ℚ), 0, 5] 2 (by decide)).1⟩

/-- C19 as stated fails in binary64: on the buffer `[0, 2^-600]` of two doubles
the square of `2^-600` underflows, `lengthSquared` is `0`, and component `1` is
not `0`. -/
theorem CmLengthSq_zero_iff_fails_binary64 :
    binary64Round (1 / 2 ^ 600) = 1 / 2 ^ 600
      ∧ 2 ≤ [(0 : ℚ), 1 / 2 ^ 600].length
      ∧ CmLengthSq.rounded binary64Round [(0 : ℚ), 1 / 2 ^ 600] 2 = some 0
      ∧ [(0 : ℚ), 1 / 2 ^ 600].getD 1 0 ≠ 0 := by
  refine ⟨binary64Round_underflow.1, by decide, ?_, ?_⟩
  · simp only [CmLengthSq.rounded, CmLengthSq.roundedLoop, List.getElem?_cons_zero,
      List.getElem?_cons_succ, Option.some_bind, mul_zero, add_zero, zero_add,
      binary64Round_zero, binary64Round_underflow.2]
  · simp

/-- C20: tolerant equality is not transitive: for every `tol > 0`, with
`x1 = 0`, `x2 = tol`, `x3 = 2 * tol`, `equals(x1, x2, tol)` and
`equals(x2, x3, tol)` are true and `equals(x1, x3, tol)` is false. -/
theorem CmEquals_not_transitive (s : Scalar) (tol : T) (htol : 0 < tol) :
    (CmEquals s 0 tol tol = true ∧ CmEquals s tol (2 * tol) tol = true
        ∧ CmEquals s 0 (2 * tol) tol = false)
      ∧ ¬ ∀ x1 x2 x3 : T, CmEquals s x1 x2 tol = true → CmEquals s x2 x3 tol = true →
          CmEquals s x1 x3 tol = true := by
  have h1 : CmEquals s 0 tol tol = true := by
    rw [CmEquals_iff]
    constructor <;> linarith
  have h2 : CmEquals s tol (2 * tol) tol = true := by
    rw [CmEquals_iff]
    constructor <;> linarith
  have h3 : CmEquals s 0 (2 * tol) tol = false := by
    rw [Bool.eq_false_iff, Ne, CmEquals_iff]
    rintro ⟨h, -⟩
    linarith
  refine ⟨⟨h1, h2, h3⟩, ?_⟩
  intro htrans
  have h4 := htrans 0 tol (2 * tol) h1 h2
  rw [h3] at h4
  exact absurd h4 (by decide)

theorem CmEquals_not_transitive_witness :
    (0 : ℚ) < 1
      ∧ CmEquals Scalar.float (0 : ℚ) 1 1 = true
      ∧ CmEquals Scalar.float (1 : ℚ) (2 * 1) 1 = true
      ∧ CmEquals Scalar.float (0 : ℚ) (2 * 1) 1 = false :=
  ⟨by norm_num, (CmEquals_not_transitive Scalar.float (1 : ℚ) (by norm_num)).1⟩

end Claims


end CmLib
